import Mathlib

/-
Shallow embedding of the downloads-organizer file-organization engine
(src/downloads_organizer.py).

Modelling conventions:
  * A filesystem state (FS) is the list of files under the root, each with
    its root-relative path (component list), byte content, an optional list
    of zip entries (some = the file is a readable zip container; the
    archiver creates such files, the extractor reads them), its stat size
    and its last-modified time in integer microseconds (datetime has
    microsecond resolution; fromtimestamp is modelled in UTC).
  * rootStatus models Path.exists / is-a-directory for the resolved root:
    missing, fileAt (exists but is a regular file), dir.  In CPython 3.11
    Path.rglob on a non-directory yields no entries, so walking a fileAt
    root is the empty walk.
  * The walk order of rglob is the order of the FS file list; operations
    iterate over a snapshot of that list (moves performed by organize only
    ever re-encounter already-settled files, which the source skips, so the
    snapshot walk computes the same final state and report).
  * MD5 content hashing is modelled as the identity on observable content
    (content bytes plus zip-entry structure): equal digest iff equal bytes.
  * Fallible per-file primitives are modelled by explicit fault sets in FS:
    hashFails (open/read in get_file_hash raises), unlinkFails (unlink
    raises), moveFails (shutil.move raises), zipWriteFails (zipf.write
    raises).  mkdir and ZipFile-creation failures are derived from the FS
    itself: mkdir(exist_ok=True) raises iff a regular file occupies the
    directory path, ZipFile(p, w) raises iff a directory occupies p.
  * A Python-level uncaught exception is Except.error (); an in-band
    structured result is Except.ok.  Operations whose source cannot raise
    return plain pairs.
  * Reports carry raw byte totals; the final division by 1024*1024 and
    float round() of the source are not modelled (no claim depends on
    them).  The compression percentage is modelled over the rationals
    without the final round(.., 1).
-/

/-- Microseconds per day, the unit of timedelta(days=1). -/
def usPerDay : Int := 86400000000

/-- Python str.lower over the characters (ASCII case folding suffices for
the extension table). -/
def strLower (s : String) : String := ⟨s.data.map Char.toLower⟩

instance {ε α : Type} [DecidableEq ε] [DecidableEq α] : DecidableEq (Except ε α) := fun x y =>
  match x, y with
  | Except.ok a, Except.ok b =>
    if h : a = b then isTrue (by rw [h]) else isFalse (by intro he; cases he; exact h rfl)
  | Except.error a, Except.error b =>
    if h : a = b then isTrue (by rw [h]) else isFalse (by intro he; cases he; exact h rfl)
  | Except.ok _, Except.error _ => isFalse (by intro h; cases h)
  | Except.error _, Except.ok _ => isFalse (by intro h; cases h)

/-- Decimal digits of n, most significant first, via fuelled division;
fuel n is always enough since the recursion depth is at most n. -/
def toDecimalAux : Nat → Nat → List Char
  | 0, _ => []
  | fuel + 1, n => if n = 0 then [] else toDecimalAux fuel (n / 10) ++ [Nat.digitChar (n % 10)]

/-- Python str(n) for a natural number. -/
def natRepr (n : Nat) : String := if n = 0 then "0" else ⟨toDecimalAux n n⟩

/-- Python str(i) for an integer (years in strftime). -/
def intRepr (i : Int) : String := if i < 0 then "-" ++ natRepr i.natAbs else natRepr i.natAbs

/-- Split a character list around its LAST dot: some (b, a) with
cs = b ++ dot :: a and no dot in a; none when cs has no dot. -/
def pySplitCore : List Char → Option (List Char × List Char)
  | [] => none
  | c :: cs =>
    match pySplitCore cs with
    | some ba => some (c :: ba.1, ba.2)
    | none => if c = '.' then some ([], cs) else none

/-- pathlib stem/suffix rule: the suffix is the part from the last dot when
that dot is neither the first nor the last character, else empty. -/
def pySplitExt (cs : List Char) : List Char × List Char :=
  match pySplitCore cs with
  | some ba => if ba.1 ≠ [] ∧ ba.2 ≠ [] then (ba.1, '.' :: ba.2) else (cs, [])
  | none => (cs, [])

/-- Path(name).stem -/
def pyStem (s : String) : String := ⟨(pySplitExt s.data).1⟩

/-- Path(name).suffix -/
def pySuffix (s : String) : String := ⟨(pySplitExt s.data).2⟩

/-- FILE_CATEGORIES table of the source, in dict insertion order. -/
def FILE_CATEGORIES : List (String × List String) := [
  ("Images", [".jpg", ".jpeg", ".png", ".gif", ".bmp", ".svg", ".webp", ".ico"]),
  ("Documents", [".pdf", ".doc", ".docx", ".txt", ".rtf", ".odt", ".xls", ".xlsx", ".ppt", ".pptx"]),
  ("Videos", [".mp4", ".avi", ".mkv", ".mov", ".wmv", ".flv", ".webm"]),
  ("Audio", [".mp3", ".wav", ".flac", ".aac", ".ogg", ".m4a"]),
  ("Archives", [".zip", ".rar", ".7z", ".tar", ".gz", ".bz2"]),
  ("Code", [".py", ".js", ".java", ".cpp", ".c", ".html", ".css", ".json", ".xml", ".sql"]),
  ("Programs", [".exe", ".msi", ".dmg", ".deb", ".rpm", ".apk"]),
  ("Other", [])]

/-- get_category on an already lowercased extension: first table entry whose
list contains it, else Other. -/
def categoryOfExt (ext : String) : String :=
  match FILE_CATEGORIES.find? (fun ce => ce.2.contains ext) with
  | some ce => ce.1
  | none => "Other"

/-- One file of the tree: root-relative path components, content bytes,
optional zip-entry structure, stat size, mtime in microseconds. -/
structure FileEntry where
  path : List String
  content : List Nat
  zipEntries : Option (List (List String × List Nat))
  size : Nat
  mtime : Int
deriving DecidableEq

inductive RootStatus
  | missing
  | fileAt
  | dir
deriving DecidableEq

/-- Filesystem state plus the fault sets of the fallible primitives. -/
structure FS where
  rootStatus : RootStatus
  files : List FileEntry
  hashFails : List (List String)
  unlinkFails : List (List String)
  moveFails : List (List String)
  zipWriteFails : List (List String)
deriving DecidableEq

def FileEntry.name (f : FileEntry) : String := f.path.getLastD ""

/-- get_category(item): category of the lowercased suffix of the file name. -/
def getCategory (f : FileEntry) : String := categoryOfExt (strLower (pySuffix f.name))

/-- path.rglob walk: all files when the root is a directory, nothing when the
root exists as a regular file. -/
def walkFiles (fs : FS) : List FileEntry := if fs.rootStatus = RootStatus.dir then fs.files else []

/-- Real filesystems give every file a distinct path. -/
def pathsNodup (l : List FileEntry) : Prop := (l.map FileEntry.path).Nodup

/-- target_path.exists(): true when p names a file or a directory, i.e. when
p is a prefix of some file path. -/
def occupiedPath (cur : List FileEntry) (p : List String) : Bool :=
  cur.any (fun g => p.isPrefixOf g.path)

/-- Candidate name stem_counter suffix of the collision loop. -/
def candName (stem suf : String) (k : Nat) : String := stem ++ "_" ++ natRepr k ++ suf

/-- The while target_path.exists() loop; the fuel is always sufficient
(pigeonhole over the finitely many files, proved below). -/
def resolveName (cur : List FileEntry) (dir : List String) (stem suf : String) :
    Nat → Nat → String
  | 0, k => candName stem suf k
  | fuel + 1, k =>
    let c := candName stem suf k
    if occupiedPath cur (dir ++ [c]) then resolveName cur dir stem suf fuel (k + 1) else c

/-- Collision-safe destination name for moving a file called name into dir. -/
def chooseName (cur : List FileEntry) (dir : List String) (name : String) : String :=
  if occupiedPath cur (dir ++ [name]) then
    resolveName cur dir (pyStem name) (pySuffix name) (cur.length + 1) 1
  else name

/-- shutil.move of f into dir with the collision-resolved name: the entry at
the path of f is relocated, everything else is untouched. -/
def performMove (cur : List FileEntry) (dir : List String) (f : FileEntry) :
    List FileEntry × String :=
  let n := chooseName cur dir f.name
  (cur.map (fun g => if g.path = f.path then { g with path := dir ++ [n] } else g), n)

/-- defaultdict(list) insertion-ordered append of v under key k. -/
def pushKey (m : List (String × List String)) (k v : String) : List (String × List String) :=
  if m.any (fun kv => kv.1 = k) then
    m.map (fun kv => if kv.1 = k then (kv.1, kv.2 ++ [v]) else kv)
  else m ++ [(k, [v])]

/-- The error string f-string name: str(e) appended on a failed move. -/
def moveErr (f : FileEntry) : String := f.name ++ ": move failed"

/-- Accumulator of one organize walk: current files, moved_files dict,
error list. -/
structure OrgAcc where
  cur : List FileEntry
  moved : List (String × List String)
  errs : List String
deriving DecidableEq

/-- One iteration of the organize loop (shared by organize_by_type_sync and
organize_by_date_sync): skip when already in the destination directory;
in dry-run record only; otherwise mkdir (raising on a blocking file), then
move with per-file errors caught in-band. -/
def orgStep (dryRun : Bool) (moveFails : List (List String))
    (dirOf : FileEntry → List String) (keyOf : FileEntry → String)
    (blocked : List FileEntry → List String → Bool)
    (acc : OrgAcc) (f : FileEntry) : Except Unit OrgAcc :=
  let d := dirOf f
  if f.path.dropLast = d then Except.ok acc
  else if dryRun then Except.ok { acc with moved := pushKey acc.moved (keyOf f) f.name }
  else if blocked acc.cur d then Except.error ()
  else if moveFails.contains f.path then
    Except.ok { acc with errs := acc.errs ++ [moveErr f] }
  else
    Except.ok { cur := (performMove acc.cur d f).1,
                moved := pushKey acc.moved (keyOf f) f.name,
                errs := acc.errs }

/-- The for item in path.rglob loop of the organizers. -/
def orgWalk (dryRun : Bool) (mf : List (List String)) (dirOf : FileEntry → List String)
    (keyOf : FileEntry → String) (blocked : List FileEntry → List String → Bool) :
    List FileEntry → OrgAcc → Except Unit OrgAcc
  | [], acc => Except.ok acc
  | f :: rest, acc =>
    match orgStep dryRun mf dirOf keyOf blocked acc f with
    | Except.ok acc2 => orgWalk dryRun mf dirOf keyOf blocked rest acc2
    | Except.error e => Except.error e

/-- Report of the organizers: moved_files, total_files, the number of keys
(categories resp. date_folders), errors, dry_run. -/
structure OrgReport where
  moved_files : List (String × List String)
  total_files : Nat
  group_count : Nat
  errors : List String
  dry_run : Bool
deriving DecidableEq

/-- ok:false path error versus ok:true report envelope. -/
inductive Res (α : Type)
  | pathError
  | report (r : α)
deriving DecidableEq

def typeDirOf (f : FileEntry) : List String := [getCategory f]

/-- target_dir.mkdir(exist_ok=True) raises iff a regular file occupies the
category path. -/
def typeBlocked (cur : List FileEntry) (d : List String) : Bool :=
  cur.any (fun g => g.path = d)

/-- organize_by_type_sync. -/
def organizeByType (fs : FS) (dryRun : Bool) : Except Unit (Res OrgReport × FS) :=
  if fs.rootStatus = RootStatus.missing then Except.ok (Res.pathError, fs)
  else
    match orgWalk dryRun fs.moveFails typeDirOf getCategory typeBlocked
        (walkFiles fs) ⟨fs.files, [], []⟩ with
    | Except.ok acc =>
      Except.ok (Res.report ⟨acc.moved, (acc.moved.map (fun kv => kv.2.length)).sum,
          acc.moved.length, acc.errs, dryRun⟩,
        { fs with files := acc.cur })
    | Except.error e => Except.error e

def monthNames : List String :=
  ["January", "February", "March", "April", "May", "June", "July",
   "August", "September", "October", "November", "December"]

/-- Zero-padded two-digit month or day of strftime. -/
def pad2 (m : Nat) : String := (if m < 10 then "0" else "") ++ natRepr m

/-- Civil date (year, month, day) from days since the Unix epoch
(Hinnant civil_from_days, floor divisions). -/
def civilFromDays (z0 : Int) : Int × Nat × Nat :=
  let z := z0 + 719468
  let era := z.fdiv 146097
  let doe := (z - era * 146097).toNat
  let yoe := (doe - doe / 1460 + doe / 36524 - doe / 146096) / 365
  let doy := doe - (365 * yoe + yoe / 4 - yoe / 100)
  let mp := (5 * doy + 2) / 153
  let d := doy - (153 * mp + 2) / 5 + 1
  let m := if mp < 10 then mp + 3 else mp - 9
  ((yoe : Int) + era * 400 + (if m ≤ 2 then 1 else 0), m, d)

/-- mtime.strftime of the date organizer: the two path components
[YYYY, MM-MonthName]. -/
def dateFolder (mtime : Int) : List String :=
  let c := civilFromDays (mtime.fdiv usPerDay)
  [intRepr c.1, pad2 c.2.1 ++ "-" ++ monthNames.getD (c.2.1 - 1) ""]

def dateDirOf (f : FileEntry) : List String := dateFolder f.mtime

/-- The moved_files key of the date organizer is the joined string
YYYY/MM-MonthName. -/
def dateKey (f : FileEntry) : String :=
  (dateFolder f.mtime).getD 0 "" ++ "/" ++ (dateFolder f.mtime).getD 1 ""

/-- target_dir.mkdir(parents=True, exist_ok=True) raises iff a regular file
occupies the year or the month path. -/
def dateBlocked (cur : List FileEntry) (d : List String) : Bool :=
  cur.any (fun g => g.path ≠ [] ∧ g.path.isPrefixOf d)

/-- organize_by_date_sync. -/
def organizeByDate (fs : FS) (dryRun : Bool) : Except Unit (Res OrgReport × FS) :=
  if fs.rootStatus = RootStatus.missing then Except.ok (Res.pathError, fs)
  else
    match orgWalk dryRun fs.moveFails dateDirOf dateKey dateBlocked
        (walkFiles fs) ⟨fs.files, [], []⟩ with
    | Except.ok acc =>
      Except.ok (Res.report ⟨acc.moved, (acc.moved.map (fun kv => kv.2.length)).sum,
          acc.moved.length, acc.errs, dryRun⟩,
        { fs with files := acc.cur })
    | Except.error e => Except.error e

/-- Observable content identity standing for the MD5 digest. -/
abbrev Digest := List Nat × Option (List (List String × List Nat))

def fileDigest (f : FileEntry) : Digest := (f.content, f.zipEntries)

/-- file_hashes[file_hash].append(item): insertion-ordered grouping. -/
def addToGroups (gs : List (Digest × List FileEntry)) (f : FileEntry) :
    List (Digest × List FileEntry) :=
  if gs.any (fun g => g.1 = fileDigest f) then
    gs.map (fun g => if g.1 = fileDigest f then (g.1, g.2 ++ [f]) else g)
  else gs ++ [(fileDigest f, [f])]

/-- The hashing pass: files whose hashing raises are skipped, the rest are
grouped by digest in first-seen order. -/
def hashGroups (l : List FileEntry) (hashFails : List (List String)) :
    List (Digest × List FileEntry) :=
  (l.filter (fun f => ¬ hashFails.contains f.path)).foldl addToGroups []

/-- Stable insertion for a descending sort by an integer key (list.sort with
reverse=True is stable: equal keys keep enumeration order). -/
def insertByDesc (key : FileEntry → Int) (x : FileEntry) : List FileEntry → List FileEntry
  | [] => [x]
  | y :: ys => if key x < key y then y :: insertByDesc key x ys else x :: y :: ys

/-- Python stable descending sort by key. -/
def sortByDesc (key : FileEntry → Int) : List FileEntry → List FileEntry
  | [] => []
  | x :: l => insertByDesc key x (sortByDesc key l)

structure DupEntry where
  file : List String
  size : Nat
  original : List String
deriving DecidableEq

structure DupReport where
  duplicates : List DupEntry
  count : Nat
  space_saved : Nat
  deleted : Bool
deriving DecidableEq

/-- item.unlink() of one path. -/
def removeByPath (cur : List FileEntry) (p : List String) : List FileEntry :=
  cur.filter (fun g => g.path ≠ p)

structure DupAcc where
  dups : List DupEntry
  space : Nat
  cur : List FileEntry
deriving DecidableEq

/-- Handling of one duplicate inside a group: record relative path, size and
the keep file relative path, add the size, then optionally unlink (a failed
unlink is swallowed and changes nothing). -/
def dupItemStep (delete : Bool) (uf : List (List String)) (keep : FileEntry)
    (a : DupAcc) (dup : FileEntry) : DupAcc :=
  { dups := a.dups ++ [⟨dup.path, dup.size, keep.path⟩],
    space := a.space + dup.size,
    cur := if delete ∧ ¬ uf.contains dup.path then removeByPath a.cur dup.path
           else a.cur }

/-- One group iteration of find_duplicates_sync: sort by mtime descending,
keep the head, record and (optionally, swallowing failures) delete the rest. -/
def dupGroupStep (delete : Bool) (uf : List (List String)) (acc : DupAcc)
    (g : Digest × List FileEntry) : DupAcc :=
  if 1 < g.2.length then
    match sortByDesc (fun f => f.mtime) g.2 with
    | [] => acc
    | keep :: dups => dups.foldl (dupItemStep delete uf keep) acc
  else acc

/-- find_duplicates_sync. -/
def findDuplicates (fs : FS) (delete : Bool) : Res DupReport × FS :=
  if fs.rootStatus = RootStatus.missing then (Res.pathError, fs)
  else
    let gs := hashGroups (walkFiles fs) fs.hashFails
    let acc := gs.foldl (dupGroupStep delete fs.unlinkFails) ⟨[], 0, fs.files⟩
    (Res.report ⟨acc.dups, acc.dups.length, acc.space, delete⟩, { fs with files := acc.cur })

structure OldEntry where
  file : List String
  age_days : Int
  size : Nat
deriving DecidableEq

structure CleanReport where
  old_files : List OldEntry
  count : Nat
  total_size : Nat
  deleted : Bool
  days_threshold : Int
deriving DecidableEq

/-- The listed record of one old file; timedelta.days floors. -/
def oldEntryOf (now : Int) (f : FileEntry) : OldEntry :=
  ⟨f.path, (now - f.mtime).fdiv usPerDay, f.size⟩

structure CleanAcc where
  old : List OldEntry
  total : Nat
  cur : List FileEntry
deriving DecidableEq

/-- One iteration of clean_old_files_sync: strictly-older files are listed,
counted and (optionally, swallowing failures) deleted. -/
def cleanStep (now cutoff : Int) (delete : Bool) (uf : List (List String))
    (acc : CleanAcc) (f : FileEntry) : CleanAcc :=
  if f.mtime < cutoff then
    { old := acc.old ++ [oldEntryOf now f],
      total := acc.total + f.size,
      cur := if delete ∧ ¬ uf.contains f.path then removeByPath acc.cur f.path else acc.cur }
  else acc

/-- clean_old_files_sync. -/
def cleanOldFiles (fs : FS) (daysOld : Int) (delete : Bool) (now : Int) :
    Res CleanReport × FS :=
  if fs.rootStatus = RootStatus.missing then (Res.pathError, fs)
  else
    let cutoff := now - daysOld * usPerDay
    let acc := (walkFiles fs).foldl (cleanStep now cutoff delete fs.unlinkFails) ⟨[], 0, fs.files⟩
    (Res.report ⟨acc.old, acc.old.length, acc.total, delete, daysOld⟩,
     { fs with files := acc.cur })

structure StatsReport where
  total_files : Nat
  total_size : Nat
  by_category : List (String × Nat × Nat)
  largest_files : List (List String × Nat)
deriving DecidableEq

/-- by_category defaultdict bump: count and size under the category key. -/
def pushCat (m : List (String × Nat × Nat)) (k : String) (sz : Nat) :
    List (String × Nat × Nat) :=
  if m.any (fun kv => kv.1 = k) then
    m.map (fun kv => if kv.1 = k then (kv.1, kv.2.1 + 1, kv.2.2 + sz) else kv)
  else m ++ [(k, 1, sz)]

/-- get_stats_sync. -/
def getStats (fs : FS) : Res StatsReport × FS :=
  if fs.rootStatus = RootStatus.missing then (Res.pathError, fs)
  else
    let w := walkFiles fs
    let byCat := w.foldl (fun m f => pushCat m (getCategory f) f.size) []
    let largest := (sortByDesc (fun f => (f.size : Int)) w).take 10
    (Res.report ⟨w.length, (w.map FileEntry.size).sum, byCat,
        largest.map (fun f => (f.path, f.size))⟩, fs)

structure ArchReport where
  archive_name : String
  archived_files : Nat
  original_size : Nat
  archive_size : Nat
  compression_pct : Rat
  files : List (List String)
deriving DecidableEq

/-- Default archive name archive_YYYY-MM-DD.zip from the current date. -/
def defaultArchiveName (now : Int) : String :=
  let c := civilFromDays (now.fdiv usPerDay)
  "archive_" ++ intRepr c.1 ++ "-" ++ pad2 c.2.1 ++ "-" ++ pad2 c.2.2 ++ ".zip"

structure ArchAcc where
  entries : List (List String × List Nat)
  names : List (List String)
  total : Nat
  cur : List FileEntry
deriving DecidableEq

/-- One iteration of the archive loop: strictly-older files are written into
the container (entry name = relative path), counted, then unlinked; a failed
write skips the file entirely, a failed unlink leaves the already-written,
already-counted file on disk.  All failures are swallowed. -/
def archStep (cutoff : Int) (wf uf : List (List String)) (acc : ArchAcc)
    (f : FileEntry) : ArchAcc :=
  if f.mtime < cutoff then
    if wf.contains f.path then acc
    else
      { entries := acc.entries ++ [(f.path, f.content)],
        names := acc.names ++ [f.path],
        total := acc.total + f.size,
        cur := if uf.contains f.path then acc.cur else removeByPath acc.cur f.path }
  else acc

/-- archive_files_sync; zsize is the stat size of the produced container
(compressed size, an oracle of the model).  Opening the container raises
out-of-band when the root is a regular file or a directory occupies the
container path; the walk excludes the container itself. -/
def archiveFiles (fs : FS) (daysOld : Int) (archiveName : Option String)
    (now : Int) (zsize : Nat) : Except Unit (Res ArchReport × FS) :=
  if fs.rootStatus = RootStatus.missing then Except.ok (Res.pathError, fs)
  else if fs.rootStatus = RootStatus.fileAt then Except.error ()
  else
    let name := archiveName.getD (defaultArchiveName now)
    if fs.files.any (fun g => [name].isPrefixOf g.path ∧ g.path ≠ [name]) then Except.error ()
    else
      let cutoff := now - daysOld * usPerDay
      let snapshot := fs.files.filter (fun g => g.path ≠ [name])
      let acc := snapshot.foldl (archStep cutoff fs.zipWriteFails fs.unlinkFails)
        ⟨[], [], 0, snapshot⟩
      Except.ok (Res.report ⟨name, acc.names.length, acc.total, zsize,
          (if 0 < acc.total then (1 - (zsize : Rat) / (acc.total : Rat)) * 100 else 0),
          acc.names.take 20⟩,
        { fs with files := acc.cur ++ [⟨[name], [], some acc.entries, zsize, now⟩] })

structure ExtractReport where
  extracted : List (List String × List String)
  count : Nat
  errors : List String
  deleted_archives : Bool
deriving DecidableEq

/-- extractall overwrites: replace the entry at the path if present, else add. -/
def upsertFile (cur : List FileEntry) (f : FileEntry) : List FileEntry :=
  if cur.any (fun g => g.path = f.path) then
    cur.map (fun g => if g.path = f.path then f else g)
  else cur ++ [f]

def extractErr (f : FileEntry) : String := f.name ++ ": bad zip"

def unlinkErr (f : FileEntry) : String := f.name ++ ": unlink failed"

structure ExtAcc where
  extracted : List (List String × List String)
  errs : List String
  cur : List FileEntry
deriving DecidableEq

/-- One iteration of extract_archives_sync over a .zip-suffixed file:
expand the entries into the sibling stem directory, record the pair, then
optionally unlink; a bad container or a failed unlink is recorded in-band. -/
def extStep (deleteAfter : Bool) (uf : List (List String)) (now : Int)
    (acc : ExtAcc) (f : FileEntry) : ExtAcc :=
  if strLower (pySuffix f.name) = ".zip" then
    match f.zipEntries with
    | none => { acc with errs := acc.errs ++ [extractErr f] }
    | some es =>
      let dir := f.path.dropLast ++ [pyStem f.name]
      let cur2 := es.foldl (fun c e => upsertFile c ⟨dir ++ e.1, e.2, none, e.2.length, now⟩) acc.cur
      let acc2 := { acc with cur := cur2, extracted := acc.extracted ++ [(f.path, dir)] }
      if deleteAfter then
        if uf.contains f.path then { acc2 with errs := acc2.errs ++ [unlinkErr f] }
        else { acc2 with cur := removeByPath acc2.cur f.path }
      else acc2
  else acc

/-- extract_archives_sync. -/
def extractArchives (fs : FS) (deleteAfter : Bool) (now : Int) : Res ExtractReport × FS :=
  if fs.rootStatus = RootStatus.missing then (Res.pathError, fs)
  else
    let acc := (walkFiles fs).foldl (extStep deleteAfter fs.unlinkFails now) ⟨[], [], fs.files⟩
    (Res.report ⟨acc.extracted, acc.extracted.length, acc.errs, deleteAfter⟩,
     { fs with files := acc.cur })

/-! Supporting lemmas about the decimal representation. -/

/-- Decimal value of a digit-character list, for the round trip. -/
def charsVal (cs : List Char) : Nat := cs.foldl (fun a c => 10 * a + (c.toNat - 48)) 0

theorem charsVal_append (l : List Char) (c : Char) :
    charsVal (l ++ [c]) = 10 * charsVal l + (c.toNat - 48) := by
  simp [charsVal, List.foldl_append]

theorem digitChar_toNat (d : Nat) (h : d < 10) : (Nat.digitChar d).toNat - 48 = d := by
  interval_cases d <;> decide

theorem toDecimalAux_val : ∀ fuel n, n ≤ fuel → charsVal (toDecimalAux fuel n) = n := by
  intro fuel
  induction fuel with
  | zero =>
    intro n h
    have h0 : n = 0 := Nat.le_zero.mp h
    subst h0; decide
  | succ f ih =>
    intro n h
    by_cases h0 : n = 0
    · subst h0; simp [toDecimalAux, charsVal]
    · have hd : n / 10 ≤ f := by
        have : n / 10 < n := Nat.div_lt_self (Nat.pos_of_ne_zero h0) (by norm_num)
        omega
      have hm : n % 10 < 10 := Nat.mod_lt _ (by norm_num)
      simp only [toDecimalAux, h0, if_false, charsVal_append, ih _ hd, digitChar_toNat _ hm]
      omega

theorem natRepr_val (n : Nat) : charsVal (natRepr n).data = n := by
  by_cases h : n = 0
  · subst h; decide
  · simp only [natRepr, h, if_false]
    exact toDecimalAux_val n n le_rfl

theorem natRepr_injective : Function.Injective natRepr := by
  intro m n h
  have := natRepr_val m
  rw [h, natRepr_val] at this
  omega

theorem toDecimalAux_mem (fuel : Nat) : ∀ n c, c ∈ toDecimalAux fuel n → ∃ d, d < 10 ∧ c = Nat.digitChar d := by
  induction fuel with
  | zero => intro n c h; simp [toDecimalAux] at h
  | succ f ih =>
    intro n c h
    by_cases h0 : n = 0
    · subst h0; simp [toDecimalAux] at h
    · simp only [toDecimalAux, h0, if_false, List.mem_append, List.mem_singleton] at h
      rcases h with h | h
      · exact ih _ _ h
      · exact ⟨n % 10, Nat.mod_lt _ (by norm_num), h⟩

theorem natRepr_no_dot (n : Nat) : ∀ c ∈ (natRepr n).data, c ≠ '.' ∧ c ≠ '_' := by
  intro c hc
  by_cases h : n = 0
  · subst h; simp [natRepr] at hc; subst hc; decide
  · simp only [natRepr, h, if_false] at hc
    obtain ⟨d, hd, rfl⟩ := toDecimalAux_mem n n c hc
    interval_cases d <;> decide

theorem natRepr_ne_nil (n : Nat) : (natRepr n).data ≠ [] := by
  by_cases h : n = 0
  · subst h; decide
  · simp only [natRepr, h, if_false]
    obtain ⟨f, rfl⟩ : ∃ f, n = f + 1 := ⟨n - 1, by omega⟩
    simp [toDecimalAux]

/-! Supporting lemmas about candidate names. -/

theorem candName_data (stem suf : String) (k : Nat) :
    (candName stem suf k).data = (stem.data ++ '_' :: (natRepr k).data) ++ suf.data := by
  simp [candName, String.data_append]

theorem candName_injective (stem suf : String) : Function.Injective (candName stem suf) := by
  intro k1 k2 h
  have hd : (candName stem suf k1).data = (candName stem suf k2).data := by rw [h]
  rw [candName_data, candName_data] at hd
  have h2 := List.append_cancel_right hd
  have h3 := List.append_cancel_left h2
  have h4 : natRepr k1 = natRepr k2 := by
    cases hn1 : natRepr k1 with
    | mk d1 => cases hn2 : natRepr k2 with
      | mk d2 =>
        rw [hn1, hn2] at h3
        simp only [List.cons.injEq] at h3
        simp [h3.2]
  exact natRepr_injective h4

/-! Supporting lemmas about the pathlib suffix rule. -/

theorem pySplitCore_eq_none {cs : List Char} (h : '.' ∉ cs) : pySplitCore cs = none := by
  induction cs with
  | nil => rfl
  | cons c cs ih =>
    have hc : c ≠ '.' := fun he => h (he ▸ List.mem_cons_self c cs)
    have hcs : '.' ∉ cs := fun hm => h (List.mem_cons_of_mem c hm)
    simp only [pySplitCore, ih hcs]
    rw [if_neg hc]

theorem pySplitCore_none_no_dot : ∀ {cs : List Char}, pySplitCore cs = none → '.' ∉ cs := by
  intro cs
  induction cs with
  | nil => intro _ h; simp at h
  | cons c cs ih =>
    intro h
    simp only [pySplitCore] at h
    cases hcs : pySplitCore cs with
    | some ba => rw [hcs] at h; simp at h
    | none =>
      rw [hcs] at h
      by_cases hc : c = '.'
      · simp [hc] at h
      · simp only [List.mem_cons, not_or]
        exact ⟨fun h2 => hc h2.symm, ih hcs⟩

theorem pySplitCore_append {a : List Char} (b : List Char) (h : '.' ∉ a) :
    pySplitCore (b ++ '.' :: a) = some (b, a) := by
  induction b with
  | nil => simp [pySplitCore, pySplitCore_eq_none h]
  | cons c b ih => simp [pySplitCore, ih]

theorem pySplitCore_some : ∀ {cs : List Char} {b a : List Char},
    pySplitCore cs = some (b, a) → cs = b ++ '.' :: a ∧ '.' ∉ a := by
  intro cs
  induction cs with
  | nil => intro b a h; simp [pySplitCore] at h
  | cons c cs ih =>
    intro b a h
    simp only [pySplitCore] at h
    cases hcs : pySplitCore cs with
    | some ba =>
      rw [hcs] at h
      simp only [Option.some.injEq, Prod.mk.injEq] at h
      obtain ⟨hb, ha⟩ := h
      obtain ⟨he, hd⟩ := ih (b := ba.1) (a := ba.2) (by rw [hcs])
      subst hb
      subst ha
      refine ⟨?_, hd⟩
      simp [he]
    | none =>
      rw [hcs] at h
      by_cases hc : c = '.'
      · simp only [hc, if_true, Option.some.injEq, Prod.mk.injEq] at h
        obtain ⟨hb, ha⟩ := h
        subst ha
        rw [← hb, hc]
        exact ⟨rfl, pySplitCore_none_no_dot hcs⟩
      · simp [hc] at h

/-! Category preservation under collision renaming. -/

/-- The category computed from a file name alone. -/
def nameCategory (s : String) : String := categoryOfExt (strLower (pySuffix s))

theorem table_no_underscore : ∀ ce ∈ FILE_CATEGORIES, ∀ e ∈ ce.2, '_' ∉ e.data := by decide

theorem strLower_underscore {s : String} (h : '_' ∈ s.data) : '_' ∈ (strLower s).data :=
  List.mem_map.mpr ⟨'_', h, by decide⟩

theorem categoryOfExt_underscore {s : String} (h : '_' ∈ s.data) : categoryOfExt s = "Other" := by
  unfold categoryOfExt
  have hn : FILE_CATEGORIES.find? (fun ce => ce.2.contains s) = none := by
    rw [List.find?_eq_none]
    intro ce hce hc
    exact table_no_underscore ce hce s (List.elem_iff.mp hc) h
  rw [hn]

theorem nameCategory_underscore {s : String} (h : '_' ∈ s.data) : categoryOfExt (strLower s) = "Other" :=
  categoryOfExt_underscore (strLower_underscore h)

theorem candName_mk_data (st su : List Char) (k : Nat) :
    (candName ⟨st⟩ ⟨su⟩ k).data = (st ++ '_' :: (natRepr k).data) ++ su := by
  simpa using candName_data ⟨st⟩ ⟨su⟩ k


theorem mid_no_dot (k : Nat) : '.' ∉ ('_' :: (natRepr k).data) := by
  intro hm
  rcases List.mem_cons.mp hm with hm | hm
  · exact absurd hm.symm (by decide)
  · exact (natRepr_no_dot k '.' hm).1 rfl

theorem catExt_empty : categoryOfExt (strLower ⟨[]⟩) = "Other" := by decide

theorem pySplitExt_of_core {cs : List Char} {ba : List Char × List Char}
    (h : pySplitCore cs = some ba) :
    pySplitExt cs = if ba.1 ≠ [] ∧ ba.2 ≠ [] then (ba.1, '.' :: ba.2) else (cs, []) := by
  simp only [pySplitExt, h]

theorem pySplitExt_of_core_none {cs : List Char} (h : pySplitCore cs = none) :
    pySplitExt cs = (cs, []) := by
  simp only [pySplitExt, h]

theorem nameCategory_candName (name : String) (k : Nat) :
    nameCategory (candName (pyStem name) (pySuffix name) k) = nameCategory name := by
  have hmid : '.' ∉ ('_' :: (natRepr k).data) := mid_no_dot k
  unfold nameCategory
  cases hsc : pySplitCore name.data with
  | some ba =>
    obtain ⟨heq, hnd⟩ := pySplitCore_some hsc
    by_cases hcond : ba.1 ≠ [] ∧ ba.2 ≠ []
    · have hsuf : pySuffix name = ⟨'.' :: ba.2⟩ := by
        unfold pySuffix; rw [pySplitExt_of_core hsc, if_pos hcond]
      have hstem : pyStem name = ⟨ba.1⟩ := by
        unfold pyStem; rw [pySplitExt_of_core hsc, if_pos hcond]
      rw [hsuf, hstem]
      have hs2 : pySplitCore (candName ⟨ba.1⟩ ⟨'.' :: ba.2⟩ k).data
          = some (ba.1 ++ '_' :: (natRepr k).data, ba.2) := by
        rw [candName_mk_data]
        exact pySplitCore_append _ hnd
      unfold pySuffix
      rw [pySplitExt_of_core hs2, if_pos ⟨by simp, hcond.2⟩]
    · have hsuf : pySuffix name = ⟨[]⟩ := by
        unfold pySuffix; rw [pySplitExt_of_core hsc, if_neg hcond]
      have hstem : pyStem name = ⟨name.data⟩ := by
        unfold pyStem; rw [pySplitExt_of_core hsc, if_neg hcond]
      rw [hsuf, hstem]
      have hnodot2 : '.' ∉ ba.2 ++ '_' :: (natRepr k).data := by
        intro hm
        rcases List.mem_append.mp hm with hm | hm
        · exact hnd hm
        · exact hmid hm
      have hcd : (candName ⟨name.data⟩ ⟨[]⟩ k).data
          = ba.1 ++ '.' :: (ba.2 ++ '_' :: (natRepr k).data) := by
        rw [candName_mk_data, heq]; simp
      have hs2 : pySplitCore (candName ⟨name.data⟩ ⟨[]⟩ k).data
          = some (ba.1, ba.2 ++ '_' :: (natRepr k).data) := by
        rw [hcd]; exact pySplitCore_append _ hnodot2
      unfold pySuffix
      rw [pySplitExt_of_core hs2]
      by_cases hb1 : ba.1 = []
      · rw [if_neg (by simp [hb1])]
      · rw [if_pos ⟨hb1, by simp⟩]
        rw [nameCategory_underscore (by simp)]
        exact catExt_empty.symm
  | none =>
    have hnd : '.' ∉ name.data := pySplitCore_none_no_dot hsc
    have hsuf : pySuffix name = ⟨[]⟩ := by
      unfold pySuffix; rw [pySplitExt_of_core_none hsc]
    have hstem : pyStem name = ⟨name.data⟩ := by
      unfold pyStem; rw [pySplitExt_of_core_none hsc]
    rw [hsuf, hstem]
    have hcd : (candName ⟨name.data⟩ ⟨[]⟩ k).data
        = name.data ++ '_' :: (natRepr k).data := by
      rw [candName_mk_data]; simp
    have hnodot : '.' ∉ (candName ⟨name.data⟩ ⟨[]⟩ k).data := by
      rw [hcd]
      intro hm
      rcases List.mem_append.mp hm with hm | hm
      · exact hnd hm
      · exact hmid hm
    unfold pySuffix
    rw [pySplitExt_of_core_none (pySplitCore_eq_none hnodot)]

/-! Freshness of the collision-resolved name. -/

theorem occupiedPath_iff {cur : List FileEntry} {p : List String} :
    occupiedPath cur p = true ↔ ∃ g ∈ cur, p <+: g.path := by
  simp [occupiedPath, List.any_eq_true, List.isPrefixOf_iff_prefix]

theorem prefix_same_length_eq {p q l : List String} (hp : p <+: l) (hq : q <+: l)
    (hl : p.length = q.length) : p = q := by
  rw [List.prefix_iff_eq_take] at hp hq
  rw [hp, hq, hl]

/-- Pigeonhole: among cur.length + 1 consecutive counters, some candidate
path is not occupied, because distinct candidate paths occupied in the same
directory need distinct witness files. -/
theorem exists_free_cand (cur : List FileEntry) (dir : List String) (stem suf : String)
    (c : Nat) :
    ∃ k, c ≤ k ∧ k < c + (cur.length + 1) ∧
      occupiedPath cur (dir ++ [candName stem suf k]) = false := by
  by_contra hcon
  push_neg at hcon
  have hocc : ∀ k, c ≤ k → k < c + (cur.length + 1) →
      occupiedPath cur (dir ++ [candName stem suf k]) = true := by
    intro k h1 h2
    have := hcon k h1 h2
    cases hb : occupiedPath cur (dir ++ [candName stem suf k]) with
    | false => exact absurd hb this
    | true => rfl
  have dflt : FileEntry := ⟨[], [], none, 0, 0⟩
  let w : Nat → FileEntry := fun k =>
    (cur.find? (fun g => (dir ++ [candName stem suf k]).isPrefixOf g.path)).getD dflt
  have hw : ∀ k, c ≤ k → k < c + (cur.length + 1) →
      w k ∈ cur ∧ (dir ++ [candName stem suf k]) <+: (w k).path := by
    intro k h1 h2
    have h3 := hocc k h1 h2
    rw [occupiedPath_iff] at h3
    obtain ⟨g, hg, hpre⟩ := h3
    have hs : (cur.find? (fun g => (dir ++ [candName stem suf k]).isPrefixOf g.path)).isSome := by
      rw [List.find?_isSome]
      exact ⟨g, hg, List.isPrefixOf_iff_prefix.mpr hpre⟩
    obtain ⟨a, ha⟩ := Option.isSome_iff_exists.mp hs
    have hmem := List.mem_of_find?_eq_some ha
    have hpa := List.find?_some ha
    refine ⟨?_, ?_⟩
    · simp only [w, ha, Option.getD_some]; exact hmem
    · simp only [w, ha, Option.getD_some]
      exact List.isPrefixOf_iff_prefix.mp hpa
  have hmaps : ∀ k ∈ Finset.Ico c (c + (cur.length + 1)), w k ∈ cur.toFinset := by
    intro k hk
    rw [Finset.mem_Ico] at hk
    exact List.mem_toFinset.mpr (hw k hk.1 hk.2).1
  have hcard : cur.toFinset.card < (Finset.Ico c (c + (cur.length + 1))).card := by
    rw [Nat.card_Ico]
    have := cur.toFinset_card_le
    omega
  obtain ⟨k1, hk1, k2, hk2, hne, heq⟩ :=
    Finset.exists_ne_map_eq_of_card_lt_of_maps_to hcard hmaps
  rw [Finset.mem_Ico] at hk1 hk2
  have h1 := (hw k1 hk1.1 hk1.2).2
  have h2 := (hw k2 hk2.1 hk2.2).2
  rw [heq] at h1
  have hpq : dir ++ [candName stem suf k1] = dir ++ [candName stem suf k2] :=
    prefix_same_length_eq h1 h2 (by simp)
  have := List.append_cancel_left hpq
  simp only [List.cons.injEq, and_true] at this
  exact hne (candName_injective stem suf this)

theorem resolveName_free (cur : List FileEntry) (dir : List String) (stem suf : String) :
    ∀ fuel c, (∃ k, c ≤ k ∧ k < c + fuel ∧
        occupiedPath cur (dir ++ [candName stem suf k]) = false) →
      occupiedPath cur (dir ++ [resolveName cur dir stem suf fuel c]) = false := by
  intro fuel
  induction fuel with
  | zero =>
    intro c h
    obtain ⟨k, h1, h2, _⟩ := h
    omega
  | succ f ih =>
    intro c h
    obtain ⟨k, h1, h2, h3⟩ := h
    simp only [resolveName]
    by_cases hc : occupiedPath cur (dir ++ [candName stem suf c]) = true
    · simp only [hc, if_true]
      apply ih
      have hkc : c + 1 ≤ k := by
        rcases Nat.eq_or_lt_of_le h1 with he | hl
        · subst he; rw [hc] at h3; cases h3
        · omega
      exact ⟨k, hkc, by omega, h3⟩
    · have hc2 : occupiedPath cur (dir ++ [candName stem suf c]) = false := by
        cases hb : occupiedPath cur (dir ++ [candName stem suf c]) with
        | false => rfl
        | true => exact absurd hb hc
      simp only [hc2, Bool.false_eq_true, if_false]

theorem resolveName_form (cur : List FileEntry) (dir : List String) (stem suf : String) :
    ∀ fuel c, ∃ k, c ≤ k ∧ resolveName cur dir stem suf fuel c = candName stem suf k := by
  intro fuel
  induction fuel with
  | zero => intro c; exact ⟨c, le_rfl, rfl⟩
  | succ f ih =>
    intro c
    simp only [resolveName]
    by_cases hc : occupiedPath cur (dir ++ [candName stem suf c]) = true
    · simp only [hc, if_true]
      obtain ⟨k, hk, he⟩ := ih (c + 1)
      exact ⟨k, by omega, he⟩
    · have hc2 : occupiedPath cur (dir ++ [candName stem suf c]) = false := by
        cases hb : occupiedPath cur (dir ++ [candName stem suf c]) with
        | false => rfl
        | true => exact absurd hb hc
      simp only [hc2, Bool.false_eq_true, if_false]
      exact ⟨c, le_rfl, rfl⟩

theorem chooseName_free (cur : List FileEntry) (dir : List String) (name : String) :
    occupiedPath cur (dir ++ [chooseName cur dir name]) = false := by
  unfold chooseName
  by_cases h : occupiedPath cur (dir ++ [name]) = true
  · simp only [h, if_true]
    exact resolveName_free cur dir (pyStem name) (pySuffix name) (cur.length + 1) 1
      (exists_free_cand cur dir (pyStem name) (pySuffix name) 1)
  · have h2 : occupiedPath cur (dir ++ [name]) = false := by
      cases hb : occupiedPath cur (dir ++ [name]) with
      | false => rfl
      | true => exact absurd hb h
    simp only [h2, Bool.false_eq_true, if_false]

theorem chooseName_form (cur : List FileEntry) (dir : List String) (name : String) :
    chooseName cur dir name = name ∨
      ∃ k, 1 ≤ k ∧ chooseName cur dir name = candName (pyStem name) (pySuffix name) k := by
  unfold chooseName
  by_cases h : occupiedPath cur (dir ++ [name]) = true
  · simp only [h, if_true]
    obtain ⟨k, hk, he⟩ := resolveName_form cur dir (pyStem name) (pySuffix name) (cur.length + 1) 1
    exact Or.inr ⟨k, hk, he⟩
  · have h2 : occupiedPath cur (dir ++ [name]) = false := by
      cases hb : occupiedPath cur (dir ++ [name]) with
      | false => rfl
      | true => exact absurd hb h
    simp only [h2, Bool.false_eq_true, if_false]
    exact Or.inl trivial

theorem nameCategory_chooseName (cur : List FileEntry) (dir : List String) (name : String) :
    nameCategory (chooseName cur dir name) = nameCategory name := by
  rcases chooseName_form cur dir name with h | ⟨k, _, h⟩
  · rw [h]
  · rw [h, nameCategory_candName]

theorem chooseName_not_exact (cur : List FileEntry) (dir : List String) (name : String) :
    ∀ g ∈ cur, g.path ≠ dir ++ [chooseName cur dir name] := by
  intro g hg he
  have hf := chooseName_free cur dir name
  have : occupiedPath cur (dir ++ [chooseName cur dir name]) = true :=
    occupiedPath_iff.mpr ⟨g, hg, he ▸ List.prefix_rfl⟩
  rw [hf] at this
  cases this

/-! Behavior of one organize step, by branch. -/

theorem orgStep_skip {dr : Bool} {mf : List (List String)} {dirOf : FileEntry → List String}
    {keyOf : FileEntry → String} {blocked : List FileEntry → List String → Bool}
    {acc : OrgAcc} {f : FileEntry} (h : f.path.dropLast = dirOf f) :
    orgStep dr mf dirOf keyOf blocked acc f = Except.ok acc := by
  simp only [orgStep, h, if_true]

theorem orgStep_dry {mf : List (List String)} {dirOf : FileEntry → List String}
    {keyOf : FileEntry → String} {blocked : List FileEntry → List String → Bool}
    {acc : OrgAcc} {f : FileEntry} (h : ¬ f.path.dropLast = dirOf f) :
    orgStep true mf dirOf keyOf blocked acc f
      = Except.ok { acc with moved := pushKey acc.moved (keyOf f) f.name } := by
  simp only [orgStep, h, if_false, if_true]

theorem orgStep_blocked {mf : List (List String)} {dirOf : FileEntry → List String}
    {keyOf : FileEntry → String} {blocked : List FileEntry → List String → Bool}
    {acc : OrgAcc} {f : FileEntry} (h : ¬ f.path.dropLast = dirOf f)
    (hb : blocked acc.cur (dirOf f) = true) :
    orgStep false mf dirOf keyOf blocked acc f = Except.error () := by
  simp only [orgStep, h, if_false, Bool.false_eq_true, hb, if_true]

theorem orgStep_movefail {mf : List (List String)} {dirOf : FileEntry → List String}
    {keyOf : FileEntry → String} {blocked : List FileEntry → List String → Bool}
    {acc : OrgAcc} {f : FileEntry} (h : ¬ f.path.dropLast = dirOf f)
    (hb : blocked acc.cur (dirOf f) = false) (hm : mf.contains f.path = true) :
    orgStep false mf dirOf keyOf blocked acc f
      = Except.ok { acc with errs := acc.errs ++ [moveErr f] } := by
  simp only [orgStep, h, if_false, hb, Bool.false_eq_true, hm, if_true]

theorem orgStep_move {mf : List (List String)} {dirOf : FileEntry → List String}
    {keyOf : FileEntry → String} {blocked : List FileEntry → List String → Bool}
    {acc : OrgAcc} {f : FileEntry} (h : ¬ f.path.dropLast = dirOf f)
    (hb : blocked acc.cur (dirOf f) = false) (hm : mf.contains f.path = false) :
    orgStep false mf dirOf keyOf blocked acc f
      = Except.ok ⟨(performMove acc.cur (dirOf f) f).1,
          pushKey acc.moved (keyOf f) f.name, acc.errs⟩ := by
  simp only [orgStep, h, if_false, hb, hm, Bool.false_eq_true]

theorem orgWalk_nil {dr : Bool} {mf : List (List String)} {dirOf : FileEntry → List String}
    {keyOf : FileEntry → String} {blocked : List FileEntry → List String → Bool}
    {acc : OrgAcc} : orgWalk dr mf dirOf keyOf blocked [] acc = Except.ok acc := rfl

theorem orgWalk_cons_ok {dr : Bool} {mf : List (List String)} {dirOf : FileEntry → List String}
    {keyOf : FileEntry → String} {blocked : List FileEntry → List String → Bool}
    {acc acc2 : OrgAcc} {f : FileEntry} {rest : List FileEntry}
    (h : orgStep dr mf dirOf keyOf blocked acc f = Except.ok acc2) :
    orgWalk dr mf dirOf keyOf blocked (f :: rest) acc
      = orgWalk dr mf dirOf keyOf blocked rest acc2 := by
  simp only [orgWalk, h]

theorem orgWalk_cons_err {dr : Bool} {mf : List (List String)} {dirOf : FileEntry → List String}
    {keyOf : FileEntry → String} {blocked : List FileEntry → List String → Bool}
    {acc : OrgAcc} {f : FileEntry} {rest : List FileEntry}
    (h : orgStep dr mf dirOf keyOf blocked acc f = Except.error ()) :
    orgWalk dr mf dirOf keyOf blocked (f :: rest) acc = Except.error () := by
  simp only [orgWalk, h]

/-! The dry-run walk never mutates the tree, never fails, never records errors. -/

theorem orgWalk_dry {mf : List (List String)} {dirOf : FileEntry → List String}
    {keyOf : FileEntry → String} {blocked : List FileEntry → List String → Bool} :
    ∀ (todo : List FileEntry) (acc : OrgAcc), ∃ m,
      orgWalk true mf dirOf keyOf blocked todo acc = Except.ok ⟨acc.cur, m, acc.errs⟩ := by
  intro todo
  induction todo with
  | nil => intro acc; exact ⟨acc.moved, rfl⟩
  | cons f rest ih =>
    intro acc
    by_cases hs : f.path.dropLast = dirOf f
    · obtain ⟨m, hm⟩ := ih acc
      exact ⟨m, by rw [orgWalk_cons_ok (orgStep_skip hs)]; exact hm⟩
    · obtain ⟨m, hm⟩ := ih { acc with moved := pushKey acc.moved (keyOf f) f.name }
      exact ⟨m, by rw [orgWalk_cons_ok (orgStep_dry hs)]; exact hm⟩

/-! Error lists only grow along a walk. -/

theorem orgWalk_errs_mono {dr : Bool} {mf : List (List String)} {dirOf : FileEntry → List String}
    {keyOf : FileEntry → String} {blocked : List FileEntry → List String → Bool} :
    ∀ (todo : List FileEntry) (acc acc2 : OrgAcc),
      orgWalk dr mf dirOf keyOf blocked todo acc = Except.ok acc2 →
      ∃ l, acc2.errs = acc.errs ++ l := by
  intro todo
  induction todo with
  | nil =>
    intro acc acc2 h
    rw [orgWalk_nil] at h
    cases h
    exact ⟨[], by simp⟩
  | cons f rest ih =>
    intro acc acc2 h
    by_cases hs : f.path.dropLast = dirOf f
    · rw [orgWalk_cons_ok (orgStep_skip hs)] at h
      exact ih _ _ h
    · cases dr with
      | true =>
        rw [orgWalk_cons_ok (orgStep_dry hs)] at h
        exact ih { acc with moved := pushKey acc.moved (keyOf f) f.name } acc2 h
      | false =>
        cases hb : blocked acc.cur (dirOf f) with
        | true =>
          rw [orgWalk_cons_err (orgStep_blocked hs hb)] at h
          cases h
        | false =>
          cases hm : mf.contains f.path with
          | true =>
            rw [orgWalk_cons_ok (orgStep_movefail hs hb hm)] at h
            obtain ⟨l, hl⟩ := ih _ _ h
            exact ⟨moveErr f :: l, by simpa using hl⟩
          | false =>
            rw [orgWalk_cons_ok (orgStep_move hs hb hm)] at h
            exact ih ⟨(performMove acc.cur (dirOf f) f).1,
              pushKey acc.moved (keyOf f) f.name, acc.errs⟩ acc2 h

/-! A move failure, once recorded, survives to the end of the walk. -/

theorem orgWalk_records_movefail {mf : List (List String)} {dirOf : FileEntry → List String}
    {keyOf : FileEntry → String} {blocked : List FileEntry → List String → Bool} :
    ∀ (todo : List FileEntry) (acc acc2 : OrgAcc) (f0 : FileEntry),
      f0 ∈ todo → ¬ f0.path.dropLast = dirOf f0 → mf.contains f0.path = true →
      orgWalk false mf dirOf keyOf blocked todo acc = Except.ok acc2 →
      moveErr f0 ∈ acc2.errs := by
  intro todo
  induction todo with
  | nil => intro acc acc2 f0 hmem; cases hmem
  | cons f rest ih =>
    intro acc acc2 f0 hmem hset hmf h
    by_cases hf : f = f0
    · subst hf
      by_cases hs : f.path.dropLast = dirOf f
      · exact absurd hs hset
      · cases hb : blocked acc.cur (dirOf f) with
        | true =>
          rw [orgWalk_cons_err (orgStep_blocked hs hb)] at h
          cases h
        | false =>
          rw [orgWalk_cons_ok (orgStep_movefail hs hb hmf)] at h
          obtain ⟨l, hl⟩ := orgWalk_errs_mono rest _ acc2 h
          rw [hl]
          simp
    · have hmem2 : f0 ∈ rest := by
        rcases List.mem_cons.mp hmem with he | hm
        · exact absurd he.symm hf
        · exact hm
      by_cases hs : f.path.dropLast = dirOf f
      · rw [orgWalk_cons_ok (orgStep_skip hs)] at h
        exact ih acc acc2 f0 hmem2 hset hmf h
      · cases hb : blocked acc.cur (dirOf f) with
        | true =>
          rw [orgWalk_cons_err (orgStep_blocked hs hb)] at h
          cases h
        | false =>
          cases hm : mf.contains f.path with
          | true =>
            rw [orgWalk_cons_ok (orgStep_movefail hs hb hm)] at h
            exact ih _ acc2 f0 hmem2 hset hmf h
          | false =>
            rw [orgWalk_cons_ok (orgStep_move hs hb hm)] at h
            exact ih _ acc2 f0 hmem2 hset hmf h

/-! Properties of performMove on the current file list. -/

theorem eq_of_paths_nodup {cur : List FileEntry} (h : pathsNodup cur) {f g : FileEntry}
    (hf : f ∈ cur) (hg : g ∈ cur) (he : f.path = g.path) : f = g :=
  List.inj_on_of_nodup_map h hf hg he

theorem performMove_fst (cur : List FileEntry) (dir : List String) (f : FileEntry) :
    (performMove cur dir f).1 = cur.map (fun g =>
      if g.path = f.path then { g with path := dir ++ [chooseName cur dir f.name] } else g) := rfl

theorem performMove_snd (cur : List FileEntry) (dir : List String) (f : FileEntry) :
    (performMove cur dir f).2 = chooseName cur dir f.name := rfl

theorem performMove_mem_of_ne {cur : List FileEntry} {dir : List String} {f : FileEntry}
    (g : FileEntry) (hg : g ∈ cur) (hne : g.path ≠ f.path) :
    g ∈ (performMove cur dir f).1 := by
  rw [performMove_fst]
  exact List.mem_map.mpr ⟨g, hg, by simp [hne]⟩

theorem performMove_mem_moved {cur : List FileEntry} {dir : List String} {f : FileEntry}
    (hf : f ∈ cur) :
    ({ f with path := dir ++ [chooseName cur dir f.name] } : FileEntry)
      ∈ (performMove cur dir f).1 := by
  rw [performMove_fst]
  exact List.mem_map.mpr ⟨f, hf, by simp⟩

theorem performMove_mem_elim {cur : List FileEntry} {dir : List String} {f g2 : FileEntry}
    (h : g2 ∈ (performMove cur dir f).1) :
    (∃ g ∈ cur, g.path = f.path ∧
        g2 = { g with path := dir ++ [chooseName cur dir f.name] }) ∨
      (g2 ∈ cur ∧ g2.path ≠ f.path) := by
  rw [performMove_fst] at h
  obtain ⟨g, hg, he⟩ := List.mem_map.mp h
  by_cases hp : g.path = f.path
  · left
    exact ⟨g, hg, hp, by rw [← he]; simp [hp]⟩
  · right
    have hg2 : g2 = g := by rw [← he]; simp [hp]
    rw [hg2]
    exact ⟨hg, hp⟩

theorem performMove_nodup {cur : List FileEntry} {dir : List String} {f : FileEntry}
    (h : pathsNodup cur) (_hf : f ∈ cur) : pathsNodup (performMove cur dir f).1 := by
  rw [performMove_fst]
  unfold pathsNodup
  rw [List.map_map]
  apply List.Nodup.map_on
  · intro x hx y hy hxy
    simp only [Function.comp] at hxy
    by_cases hxp : x.path = f.path <;> by_cases hyp : y.path = f.path
    · exact eq_of_paths_nodup h hx hy (by rw [hxp, hyp])
    · exfalso
      simp only [hxp, if_true, hyp, if_false] at hxy
      exact chooseName_not_exact cur dir f.name y hy hxy.symm
    · exfalso
      simp only [hxp, if_false, hyp, if_true] at hxy
      exact chooseName_not_exact cur dir f.name x hx hxy
    · simp only [hxp, if_false, hyp] at hxy
      exact eq_of_paths_nodup h hx hy hxy
  · exact List.Nodup.of_map _ h

/-! Specifics of the by-type organizer. -/

def catNames : List String := FILE_CATEGORIES.map Prod.fst

theorem getCategory_mem_catNames (f : FileEntry) : getCategory f ∈ catNames := by
  unfold getCategory categoryOfExt
  cases hf : FILE_CATEGORIES.find? (fun ce => ce.2.contains (strLower (pySuffix f.name))) with
  | some ce =>
    simp only [hf]
    exact List.mem_map.mpr ⟨ce, List.mem_of_find?_eq_some hf, rfl⟩
  | none =>
    simp only [hf]
    decide

/-- No regular file occupies a category path (what makes mkdir safe). -/
def noCatFile (cur : List FileEntry) : Prop := ∀ g ∈ cur, ∀ c ∈ catNames, g.path ≠ [c]

theorem typeBlocked_false {cur : List FileEntry} (h : noCatFile cur) (f : FileEntry) :
    typeBlocked cur (typeDirOf f) = false := by
  unfold typeBlocked typeDirOf
  rw [List.any_eq_false]
  intro g hg
  simp only [decide_eq_true_eq]
  exact h g hg (getCategory f) (getCategory_mem_catNames f)

theorem noCatFile_performMove {cur : List FileEntry} {dir : List String} {f : FileEntry}
    (h : noCatFile cur) (hd : dir ≠ []) : noCatFile (performMove cur dir f).1 := by
  intro g2 hg2 c hc
  rcases performMove_mem_elim hg2 with ⟨g, _, _, hge⟩ | ⟨hg, _⟩
  · rw [hge]
    intro heq
    have hlen := congrArg List.length heq
    simp only [List.length_append, List.length_cons, List.length_nil] at hlen
    have : dir.length ≠ 0 := fun h0 => hd (List.eq_nil_of_length_eq_zero h0)
    omega
  · exact h g2 hg c hc

theorem getCategory_eq_nameCat (f : FileEntry) : getCategory f = nameCategory f.name := rfl

theorem getCategory_moved (cur : List FileEntry) (dir : List String) (f : FileEntry) :
    getCategory ({ f with path := dir ++ [chooseName cur dir f.name] }) = getCategory f := by
  rw [getCategory_eq_nameCat, getCategory_eq_nameCat]
  have hn : ({ f with path := dir ++ [chooseName cur dir f.name] } : FileEntry).name
      = chooseName cur dir f.name := by
    unfold FileEntry.name
    exact List.getLastD_concat _ _ _
  rw [hn, nameCategory_chooseName]

theorem typeMoved_settled (cur : List FileEntry) (f : FileEntry) :
    ({ f with path := typeDirOf f ++ [chooseName cur (typeDirOf f) f.name] } : FileEntry).path.dropLast
      = typeDirOf { f with path := typeDirOf f ++ [chooseName cur (typeDirOf f) f.name] } := by
  have h1 : ({ f with path := typeDirOf f ++ [chooseName cur (typeDirOf f) f.name] }
      : FileEntry).path.dropLast = typeDirOf f := List.dropLast_concat
  rw [h1]
  show typeDirOf f = typeDirOf _
  unfold typeDirOf
  rw [getCategory_moved cur [getCategory f] f]

theorem orgWalk_type_ok {mf : List (List String)} :
    ∀ (todo : List FileEntry) (acc : OrgAcc), noCatFile acc.cur →
      ∃ acc2, orgWalk false mf typeDirOf getCategory typeBlocked todo acc = Except.ok acc2 := by
  intro todo
  induction todo with
  | nil => intro acc _; exact ⟨acc, rfl⟩
  | cons f rest ih =>
    intro acc hnc
    by_cases hs : f.path.dropLast = typeDirOf f
    · obtain ⟨acc2, h2⟩ := ih acc hnc
      exact ⟨acc2, by rw [orgWalk_cons_ok (orgStep_skip hs)]; exact h2⟩
    · have hb : typeBlocked acc.cur (typeDirOf f) = false := typeBlocked_false hnc f
      cases hm : mf.contains f.path with
      | true =>
        obtain ⟨acc2, h2⟩ := ih { acc with errs := acc.errs ++ [moveErr f] } hnc
        exact ⟨acc2, by rw [orgWalk_cons_ok (orgStep_movefail hs hb hm)]; exact h2⟩
      | false =>
        have hnc2 : noCatFile (performMove acc.cur (typeDirOf f) f).1 :=
          noCatFile_performMove hnc (by unfold typeDirOf; simp)
        obtain ⟨acc2, h2⟩ := ih ⟨(performMove acc.cur (typeDirOf f) f).1,
          pushKey acc.moved (getCategory f) f.name, acc.errs⟩ hnc2
        exact ⟨acc2, by rw [orgWalk_cons_ok (orgStep_move hs hb hm)]; exact h2⟩

theorem orgWalk_type_settled {mf : List (List String)} :
    ∀ (todo : List FileEntry) (acc acc2 : OrgAcc),
      pathsNodup acc.cur →
      (∀ f ∈ todo, f ∈ acc.cur) →
      (todo.map FileEntry.path).Nodup →
      orgWalk false mf typeDirOf getCategory typeBlocked todo acc = Except.ok acc2 →
      acc2.errs = acc.errs →
      ∀ g ∈ acc2.cur, g.path.dropLast = typeDirOf g ∨ (g ∈ acc.cur ∧ g ∉ todo) := by
  intro todo
  induction todo with
  | nil =>
    intro acc acc2 h1 h2 h3 hw he g hg
    rw [orgWalk_nil] at hw
    cases hw
    exact Or.inr ⟨hg, by simp⟩
  | cons f rest ih =>
    intro acc acc2 h1 h2 h3 hw he g hg
    have h3r : (rest.map FileEntry.path).Nodup := by
      simp only [List.map_cons, List.nodup_cons] at h3
      exact h3.2
    have h3f : f.path ∉ rest.map FileEntry.path := by
      simp only [List.map_cons, List.nodup_cons] at h3
      exact h3.1
    by_cases hs : f.path.dropLast = typeDirOf f
    · rw [orgWalk_cons_ok (orgStep_skip hs)] at hw
      have h2r : ∀ x ∈ rest, x ∈ acc.cur := fun x hx => h2 x (List.mem_cons_of_mem f hx)
      rcases ih acc acc2 h1 h2r h3r hw he g hg with hset | ⟨hmem, hnin⟩
      · exact Or.inl hset
      · by_cases hgf : g = f
        · exact Or.inl (by rw [hgf]; exact hs)
        · refine Or.inr ⟨hmem, fun hin => ?_⟩
          rcases List.mem_cons.mp hin with hh | hh
          · exact hgf hh
          · exact hnin hh
    · cases hb : typeBlocked acc.cur (typeDirOf f) with
      | true =>
        rw [orgWalk_cons_err (orgStep_blocked hs hb)] at hw
        cases hw
      | false =>
        cases hm : mf.contains f.path with
        | true =>
          rw [orgWalk_cons_ok (orgStep_movefail hs hb hm)] at hw
          obtain ⟨l, hl⟩ := orgWalk_errs_mono rest _ acc2 hw
          exfalso
          have hlen := congrArg List.length hl
          rw [he] at hlen
          simp at hlen
        | false =>
          rw [orgWalk_cons_ok (orgStep_move hs hb hm)] at hw
          have hfmem : f ∈ acc.cur := h2 f (List.mem_cons_self f rest)
          have h1n : pathsNodup (performMove acc.cur (typeDirOf f) f).1 :=
            performMove_nodup h1 hfmem
          have h2r : ∀ x ∈ rest, x ∈ (performMove acc.cur (typeDirOf f) f).1 := by
            intro x hx
            apply performMove_mem_of_ne x (h2 x (List.mem_cons_of_mem f hx))
            intro hxe
            exact h3f (hxe ▸ List.mem_map.mpr ⟨x, hx, rfl⟩)
          rcases ih _ acc2 h1n h2r h3r hw he g hg with hset | ⟨hmem, hnin⟩
          · exact Or.inl hset
          · rcases performMove_mem_elim hmem with ⟨g0, hg0, hp0, hge⟩ | ⟨hgc, hgp⟩
            · have hg0f : g0 = f := eq_of_paths_nodup h1 hg0 hfmem hp0
              rw [hg0f] at hge
              exact Or.inl (by rw [hge]; exact typeMoved_settled acc.cur f)
            · refine Or.inr ⟨hgc, fun hin => ?_⟩
              rcases List.mem_cons.mp hin with hh | hh
              · exact hgp (by rw [hh])
              · exact hnin hh

theorem orgWalk_all_settled {dr : Bool} {mf : List (List String)}
    {dirOf : FileEntry → List String} {keyOf : FileEntry → String}
    {blocked : List FileEntry → List String → Bool} :
    ∀ (todo : List FileEntry) (acc : OrgAcc), (∀ f ∈ todo, f.path.dropLast = dirOf f) →
      orgWalk dr mf dirOf keyOf blocked todo acc = Except.ok acc := by
  intro todo
  induction todo with
  | nil => intro acc _; rfl
  | cons f rest ih =>
    intro acc h
    rw [orgWalk_cons_ok (orgStep_skip (h f (List.mem_cons_self f rest)))]
    exact ih acc (fun x hx => h x (List.mem_cons_of_mem f hx))

/-! Stable descending sort of the duplicate groups. -/

theorem insertByDesc_perm (key : FileEntry → Int) (x : FileEntry) :
    ∀ l, (insertByDesc key x l).Perm (x :: l) := by
  intro l
  induction l with
  | nil => exact List.Perm.refl _
  | cons y ys ih =>
    unfold insertByDesc
    by_cases h : key x < key y
    · rw [if_pos h]
      exact (ih.cons y).trans (List.Perm.swap x y ys)
    · rw [if_neg h]

theorem sortByDesc_perm (key : FileEntry → Int) : ∀ l, (sortByDesc key l).Perm l := by
  intro l
  induction l with
  | nil => exact List.Perm.refl _
  | cons x ys ih =>
    show (insertByDesc key x (sortByDesc key ys)).Perm (x :: ys)
    exact (insertByDesc_perm key x (sortByDesc key ys)).trans (ih.cons x)

theorem sortByDesc_eq_nil {key : FileEntry → Int} {l : List FileEntry}
    (h : sortByDesc key l = []) : l = [] := by
  have hp := sortByDesc_perm key l
  rw [h] at hp
  exact hp.symm.eq_nil

theorem sortByDesc_head_max (key : FileEntry → Int) :
    ∀ (l : List FileEntry) (k : FileEntry) (rest : List FileEntry),
      sortByDesc key l = k :: rest → ∀ x ∈ l, key x ≤ key k := by
  intro l
  induction l with
  | nil => intro k rest h; cases h
  | cons y ys ih =>
    intro k rest h x hx
    cases hys : sortByDesc key ys with
    | nil =>
      have hy : ys = [] := sortByDesc_eq_nil hys
      subst hy
      have : k = y := by
        simp only [sortByDesc, hys, insertByDesc] at h
        exact (List.cons.injEq .. ▸ h).1.symm
      subst this
      rcases List.mem_cons.mp hx with he | he
      · rw [he]
      · cases he
    | cons k0 r0 =>
      have hstep : sortByDesc key (y :: ys) = insertByDesc key y (k0 :: r0) := by
        simp only [sortByDesc, hys]
      by_cases hlt : key y < key k0
      · rw [hstep] at h
        unfold insertByDesc at h
        rw [if_pos hlt] at h
        have hk : k = k0 := ((List.cons.injEq ..).mp h).1.symm
        subst hk
        rcases List.mem_cons.mp hx with he | he
        · rw [he]; exact le_of_lt hlt
        · exact ih k r0 hys x he
      · rw [hstep] at h
        unfold insertByDesc at h
        rw [if_neg hlt] at h
        have hk : k = y := ((List.cons.injEq ..).mp h).1.symm
        subst hk
        rcases List.mem_cons.mp hx with he | he
        · rw [he]
        · exact le_trans (ih k0 r0 hys x he) (not_lt.mp hlt)

theorem sortByDesc_head_first (key : FileEntry → Int) :
    ∀ (l : List FileEntry) (k : FileEntry) (rest : List FileEntry),
      sortByDesc key l = k :: rest →
      ∃ pre post, l = pre ++ k :: post ∧ ∀ x ∈ pre, key x < key k := by
  intro l
  induction l with
  | nil => intro k rest h; cases h
  | cons y ys ih =>
    intro k rest h
    cases hys : sortByDesc key ys with
    | nil =>
      have hy : ys = [] := sortByDesc_eq_nil hys
      subst hy
      have : k = y := by
        simp only [sortByDesc, hys, insertByDesc] at h
        exact (List.cons.injEq .. ▸ h).1.symm
      subst this
      exact ⟨[], [], rfl, by simp⟩
    | cons k0 r0 =>
      have hstep : sortByDesc key (y :: ys) = insertByDesc key y (k0 :: r0) := by
        simp only [sortByDesc, hys]
      by_cases hlt : key y < key k0
      · rw [hstep] at h
        unfold insertByDesc at h
        rw [if_pos hlt] at h
        have hk : k = k0 := ((List.cons.injEq ..).mp h).1.symm
        subst hk
        obtain ⟨pre, post, heq, hpre⟩ := ih k r0 hys
        refine ⟨y :: pre, post, by rw [heq]; rfl, ?_⟩
        intro x hx
        rcases List.mem_cons.mp hx with he | he
        · rw [he]; exact hlt
        · exact hpre x he
      · rw [hstep] at h
        unfold insertByDesc at h
        rw [if_neg hlt] at h
        have hk : k = y := ((List.cons.injEq ..).mp h).1.symm
        subst hk
        exact ⟨[], ys, rfl, by simp⟩

theorem sortByDesc_tail_mem (key : FileEntry → Int) {l : List FileEntry}
    {k : FileEntry} {rest : List FileEntry} (h : sortByDesc key l = k :: rest) :
    ∀ x ∈ l, x ≠ k → x ∈ rest := by
  have hp : (k :: rest).Perm l := h ▸ sortByDesc_perm key l
  intro x hx hne
  have hkl : k ∈ l := hp.mem_iff.mp (List.mem_cons_self _ _)
  have h2 : rest.Perm (l.erase k) :=
    List.Perm.cons_inv (hp.trans (List.perm_cons_erase hkl))
  exact h2.mem_iff.mpr ((List.mem_erase_of_ne hne).mpr hx)

theorem sortByDesc_tail_sub (key : FileEntry → Int) {l : List FileEntry}
    {k : FileEntry} {rest : List FileEntry} (h : sortByDesc key l = k :: rest) :
    ∀ x ∈ rest, x ∈ l := by
  have hp : (k :: rest).Perm l := h ▸ sortByDesc_perm key l
  intro x hx
  exact hp.mem_iff.mp (List.mem_cons_of_mem _ hx)

/-! Grouping by digest. -/

theorem addToGroups_digest {gs : List (Digest × List FileEntry)} {f : FileEntry}
    (h : ∀ p ∈ gs, ∀ x ∈ p.2, fileDigest x = p.1) :
    ∀ p ∈ addToGroups gs f, ∀ x ∈ p.2, fileDigest x = p.1 := by
  intro p hp x hx
  unfold addToGroups at hp
  by_cases hany : gs.any (fun g => g.1 = fileDigest f) = true
  · rw [if_pos hany] at hp
    obtain ⟨q, hq, he⟩ := List.mem_map.mp hp
    by_cases hqd : q.1 = fileDigest f
    · rw [if_pos hqd] at he
      rw [← he] at hx
      simp only [] at hx
      rcases List.mem_append.mp hx with hm | hm
      · rw [← he]
        exact h q hq x hm
      · rw [← he]
        rcases List.mem_singleton.mp hm with rfl
        exact hqd.symm
    · rw [if_neg hqd] at he
      rw [← he] at hx ⊢
      exact h q hq x hx
  · rw [if_neg hany] at hp
    rcases List.mem_append.mp hp with hm | hm
    · exact h p hm x hx
    · rcases List.mem_singleton.mp hm with rfl
      rcases List.mem_singleton.mp hx with rfl
      rfl

theorem foldl_addToGroups_digest :
    ∀ (l : List FileEntry) (gs : List (Digest × List FileEntry)),
      (∀ p ∈ gs, ∀ x ∈ p.2, fileDigest x = p.1) →
      ∀ p ∈ l.foldl addToGroups gs, ∀ x ∈ p.2, fileDigest x = p.1 := by
  intro l
  induction l with
  | nil => intro gs h; exact h
  | cons f rest ih =>
    intro gs h
    exact ih (addToGroups gs f) (addToGroups_digest h)

theorem hashGroups_digest (l : List FileEntry) (hf : List (List String)) :
    ∀ p ∈ hashGroups l hf, ∀ x ∈ p.2, fileDigest x = p.1 :=
  foldl_addToGroups_digest _ [] (by intro p hp; cases hp)

theorem addToGroups_sublist {gs : List (Digest × List FileEntry)} {f : FileEntry}
    {processed : List FileEntry} (h : ∀ p ∈ gs, p.2.Sublist processed) :
    ∀ p ∈ addToGroups gs f, p.2.Sublist (processed ++ [f]) := by
  intro p hp
  unfold addToGroups at hp
  by_cases hany : gs.any (fun g => g.1 = fileDigest f) = true
  · rw [if_pos hany] at hp
    obtain ⟨q, hq, he⟩ := List.mem_map.mp hp
    by_cases hqd : q.1 = fileDigest f
    · rw [if_pos hqd] at he
      rw [← he]
      exact List.Sublist.append (h q hq) (List.Sublist.refl [f])
    · rw [if_neg hqd] at he
      rw [← he]
      exact (h q hq).trans (List.sublist_append_left processed [f])
  · rw [if_neg hany] at hp
    rcases List.mem_append.mp hp with hm | hm
    · exact (h p hm).trans (List.sublist_append_left processed [f])
    · rcases List.mem_singleton.mp hm with rfl
      simp only []
      exact List.sublist_append_right processed [f]

theorem foldl_addToGroups_sublist :
    ∀ (l : List FileEntry) (gs : List (Digest × List FileEntry)) (processed : List FileEntry),
      (∀ p ∈ gs, p.2.Sublist processed) →
      ∀ p ∈ l.foldl addToGroups gs, p.2.Sublist (processed ++ l) := by
  intro l
  induction l with
  | nil =>
    intro gs processed h p hp
    simp only [List.foldl_nil] at hp
    exact (h p hp).trans (List.sublist_append_left processed [])
  | cons f rest ih =>
    intro gs processed h p hp
    have h2 := ih (addToGroups gs f) (processed ++ [f]) (addToGroups_sublist h) p hp
    simpa using h2

theorem hashGroups_sublist (l : List FileEntry) (hf : List (List String)) :
    ∀ p ∈ hashGroups l hf, p.2.Sublist (l.filter (fun f => ¬ hf.contains f.path)) := by
  intro p hp
  have := foldl_addToGroups_sublist (l.filter (fun f => ¬ hf.contains f.path)) [] []
    (by intro q hq; cases hq) p hp
  simpa using this

/-! The duplicate-group folds. -/

def dupEntryOf (keep dup : FileEntry) : DupEntry := ⟨dup.path, dup.size, keep.path⟩

theorem dupInner_dups (delete : Bool) (uf : List (List String)) (keep : FileEntry) :
    ∀ (dups : List FileEntry) (a : DupAcc),
      (dups.foldl (dupItemStep delete uf keep) a).dups
        = a.dups ++ dups.map (dupEntryOf keep) := by
  intro dups
  induction dups with
  | nil => intro a; simp
  | cons d rest ih =>
    intro a
    rw [List.foldl_cons, ih]
    simp [dupItemStep, dupEntryOf]

theorem dupInner_space (delete : Bool) (uf : List (List String)) (keep : FileEntry) :
    ∀ (dups : List FileEntry) (a : DupAcc),
      (dups.foldl (dupItemStep delete uf keep) a).space
        = a.space + (dups.map FileEntry.size).sum := by
  intro dups
  induction dups with
  | nil => intro a; simp
  | cons d rest ih =>
    intro a
    rw [List.foldl_cons, ih]
    simp only [dupItemStep]
    simp [Nat.add_assoc]

theorem dupInner_cur_nodel (uf : List (List String)) (keep : FileEntry) :
    ∀ (dups : List FileEntry) (a : DupAcc),
      (dups.foldl (dupItemStep false uf keep) a).cur = a.cur := by
  intro dups
  induction dups with
  | nil => intro a; rfl
  | cons d rest ih =>
    intro a
    rw [List.foldl_cons, ih]
    simp [dupItemStep]

theorem dupInner_cur_keeps (delete : Bool) (uf : List (List String)) (keep : FileEntry) :
    ∀ (dups : List FileEntry) (a : DupAcc) (f : FileEntry),
      f ∈ a.cur → uf.contains f.path = true →
      f ∈ (dups.foldl (dupItemStep delete uf keep) a).cur := by
  intro dups
  induction dups with
  | nil => intro a f hf _; exact hf
  | cons d rest ih =>
    intro a f hf hufc
    rw [List.foldl_cons]
    apply ih
    · simp only [dupItemStep]
      by_cases hc : delete ∧ ¬ uf.contains d.path
      · rw [if_pos hc]
        unfold removeByPath
        rw [List.mem_filter]
        refine ⟨hf, ?_⟩
        simp only [decide_eq_true_eq]
        intro he
        rw [he] at hufc
        rcases hc with ⟨_, hnc⟩
        exact hnc hufc
      · rw [if_neg hc]
        exact hf
    · exact hufc

/-- The duplicate entries contributed by one group. -/
def dupEntriesOfGroup (g : Digest × List FileEntry) : List DupEntry :=
  if 1 < g.2.length then
    match sortByDesc (fun f => f.mtime) g.2 with
    | [] => []
    | keep :: dups => dups.map (dupEntryOf keep)
  else []

theorem dupGroupStep_small {delete : Bool} {uf : List (List String)} {acc : DupAcc}
    {g : Digest × List FileEntry} (hlen : ¬ 1 < g.2.length) :
    dupGroupStep delete uf acc g = acc := by
  unfold dupGroupStep
  rw [if_neg hlen]

theorem dupGroupStep_nil {delete : Bool} {uf : List (List String)} {acc : DupAcc}
    {g : Digest × List FileEntry} (hlen : 1 < g.2.length)
    (hs : sortByDesc (fun f => f.mtime) g.2 = []) :
    dupGroupStep delete uf acc g = acc := by
  unfold dupGroupStep
  rw [if_pos hlen, hs]

theorem dupGroupStep_big {delete : Bool} {uf : List (List String)} {acc : DupAcc}
    {g : Digest × List FileEntry} {keep : FileEntry} {dups : List FileEntry}
    (hlen : 1 < g.2.length) (hs : sortByDesc (fun f => f.mtime) g.2 = keep :: dups) :
    dupGroupStep delete uf acc g = dups.foldl (dupItemStep delete uf keep) acc := by
  unfold dupGroupStep
  rw [if_pos hlen, hs]

theorem dupEntriesOfGroup_small {g : Digest × List FileEntry} (hlen : ¬ 1 < g.2.length) :
    dupEntriesOfGroup g = [] := by
  unfold dupEntriesOfGroup
  rw [if_neg hlen]

theorem dupEntriesOfGroup_nil {g : Digest × List FileEntry} (hlen : 1 < g.2.length)
    (hs : sortByDesc (fun f => f.mtime) g.2 = []) : dupEntriesOfGroup g = [] := by
  unfold dupEntriesOfGroup
  rw [if_pos hlen, hs]

theorem dupEntriesOfGroup_big {g : Digest × List FileEntry} {keep : FileEntry}
    {dups : List FileEntry} (hlen : 1 < g.2.length)
    (hs : sortByDesc (fun f => f.mtime) g.2 = keep :: dups) :
    dupEntriesOfGroup g = dups.map (dupEntryOf keep) := by
  unfold dupEntriesOfGroup
  rw [if_pos hlen, hs]

theorem dupFold_dups (delete : Bool) (uf : List (List String)) :
    ∀ (gs : List (Digest × List FileEntry)) (acc : DupAcc),
      (gs.foldl (dupGroupStep delete uf) acc).dups
        = acc.dups ++ gs.flatMap dupEntriesOfGroup := by
  intro gs
  induction gs with
  | nil => intro acc; simp
  | cons g rest ih =>
    intro acc
    rw [List.foldl_cons, ih, List.flatMap_cons]
    by_cases hlen : 1 < g.2.length
    · cases hs : sortByDesc (fun f => f.mtime) g.2 with
      | nil =>
        rw [dupGroupStep_nil hlen hs, dupEntriesOfGroup_nil hlen hs]
        simp
      | cons keep dups =>
        rw [dupGroupStep_big hlen hs, dupEntriesOfGroup_big hlen hs, dupInner_dups]
        simp
    · rw [dupGroupStep_small hlen, dupEntriesOfGroup_small hlen]
      simp

theorem dupFold_space (delete : Bool) (uf : List (List String)) :
    ∀ (gs : List (Digest × List FileEntry)) (acc : DupAcc),
      (gs.foldl (dupGroupStep delete uf) acc).space
        = acc.space + ((gs.flatMap dupEntriesOfGroup).map DupEntry.size).sum := by
  intro gs
  induction gs with
  | nil => intro acc; simp
  | cons g rest ih =>
    intro acc
    rw [List.foldl_cons, ih, List.flatMap_cons]
    by_cases hlen : 1 < g.2.length
    · cases hs : sortByDesc (fun f => f.mtime) g.2 with
      | nil =>
        rw [dupGroupStep_nil hlen hs, dupEntriesOfGroup_nil hlen hs]
        simp
      | cons keep dups =>
        rw [dupGroupStep_big hlen hs, dupEntriesOfGroup_big hlen hs, dupInner_space]
        simp only [List.map_append, List.sum_append]
        have hms : (dups.map (dupEntryOf keep) |>.map DupEntry.size).sum
            = (dups.map FileEntry.size).sum := by
          rw [List.map_map]
          rfl
        rw [hms]
        omega
    · rw [dupGroupStep_small hlen, dupEntriesOfGroup_small hlen]
      simp

theorem dupFold_cur_nodel (uf : List (List String)) :
    ∀ (gs : List (Digest × List FileEntry)) (acc : DupAcc),
      (gs.foldl (dupGroupStep false uf) acc).cur = acc.cur := by
  intro gs
  induction gs with
  | nil => intro acc; rfl
  | cons g rest ih =>
    intro acc
    rw [List.foldl_cons, ih]
    by_cases hlen : 1 < g.2.length
    · cases hs : sortByDesc (fun f => f.mtime) g.2 with
      | nil => rw [dupGroupStep_nil hlen hs]
      | cons keep dups => rw [dupGroupStep_big hlen hs, dupInner_cur_nodel]
    · rw [dupGroupStep_small hlen]

theorem dupFold_cur_keeps (delete : Bool) (uf : List (List String)) :
    ∀ (gs : List (Digest × List FileEntry)) (acc : DupAcc) (f : FileEntry),
      f ∈ acc.cur → uf.contains f.path = true →
      f ∈ (gs.foldl (dupGroupStep delete uf) acc).cur := by
  intro gs
  induction gs with
  | nil => intro acc f hf _; exact hf
  | cons g rest ih =>
    intro acc f hf hufc
    rw [List.foldl_cons]
    refine ih _ f ?_ hufc
    by_cases hlen : 1 < g.2.length
    · cases hs : sortByDesc (fun f => f.mtime) g.2 with
      | nil => rw [dupGroupStep_nil hlen hs]; exact hf
      | cons keep dups =>
        rw [dupGroupStep_big hlen hs]
        exact dupInner_cur_keeps delete uf keep dups acc f hf hufc
    · rw [dupGroupStep_small hlen]
      exact hf

/-! The retention fold of clean_old_files_sync. -/

theorem removeByPath_mem {cur : List FileEntry} {p : List String} {f : FileEntry}
    (hf : f ∈ cur) (hne : ¬ f.path = p) : f ∈ removeByPath cur p := by
  unfold removeByPath
  rw [List.mem_filter]
  exact ⟨hf, by simpa using hne⟩

theorem removeByPath_sub {cur : List FileEntry} {p : List String} {f : FileEntry}
    (hf : f ∈ removeByPath cur p) : f ∈ cur :=
  List.mem_of_mem_filter hf

theorem cleanFold_old (now cutoff : Int) (delete : Bool) (uf : List (List String)) :
    ∀ (l : List FileEntry) (acc : CleanAcc),
      (l.foldl (cleanStep now cutoff delete uf) acc).old
        = acc.old ++ (l.filter (fun f => decide (f.mtime < cutoff))).map (oldEntryOf now) := by
  intro l
  induction l with
  | nil => intro acc; simp
  | cons f rest ih =>
    intro acc
    rw [List.foldl_cons, ih]
    by_cases hq : f.mtime < cutoff
    · have hstep : cleanStep now cutoff delete uf acc f
          = { old := acc.old ++ [oldEntryOf now f], total := acc.total + f.size,
              cur := if delete ∧ ¬ uf.contains f.path then removeByPath acc.cur f.path
                     else acc.cur } := by
        unfold cleanStep
        rw [if_pos hq]
      rw [hstep]
      simp [List.filter_cons, hq]
    · have hstep : cleanStep now cutoff delete uf acc f = acc := by
        unfold cleanStep
        rw [if_neg hq]
      rw [hstep]
      simp [List.filter_cons, hq]

theorem cleanFold_total (now cutoff : Int) (delete : Bool) (uf : List (List String)) :
    ∀ (l : List FileEntry) (acc : CleanAcc),
      (l.foldl (cleanStep now cutoff delete uf) acc).total
        = acc.total + ((l.filter (fun f => decide (f.mtime < cutoff))).map FileEntry.size).sum := by
  intro l
  induction l with
  | nil => intro acc; simp
  | cons f rest ih =>
    intro acc
    rw [List.foldl_cons, ih]
    by_cases hq : f.mtime < cutoff
    · have hstep : (cleanStep now cutoff delete uf acc f).total = acc.total + f.size := by
        unfold cleanStep
        rw [if_pos hq]
      rw [hstep]
      simp [List.filter_cons, hq]
      omega
    · have hstep : cleanStep now cutoff delete uf acc f = acc := by
        unfold cleanStep
        rw [if_neg hq]
      rw [hstep]
      simp [List.filter_cons, hq]

theorem cleanFold_cur_nodel (now cutoff : Int) (uf : List (List String)) :
    ∀ (l : List FileEntry) (acc : CleanAcc),
      (l.foldl (cleanStep now cutoff false uf) acc).cur = acc.cur := by
  intro l
  induction l with
  | nil => intro acc; rfl
  | cons f rest ih =>
    intro acc
    rw [List.foldl_cons, ih]
    unfold cleanStep
    by_cases hq : f.mtime < cutoff
    · rw [if_pos hq]
      simp
    · rw [if_neg hq]

theorem cleanFold_cur_keeps (now cutoff : Int) (delete : Bool) (uf : List (List String)) :
    ∀ (l : List FileEntry) (acc : CleanAcc) (f : FileEntry),
      f ∈ acc.cur → uf.contains f.path = true →
      f ∈ (l.foldl (cleanStep now cutoff delete uf) acc).cur := by
  intro l
  induction l with
  | nil => intro acc f hf _; exact hf
  | cons g rest ih =>
    intro acc f hf hufc
    rw [List.foldl_cons]
    refine ih _ f ?_ hufc
    unfold cleanStep
    by_cases hq : g.mtime < cutoff
    · rw [if_pos hq]
      by_cases hc : delete ∧ ¬ uf.contains g.path
      · simp only [if_pos hc]
        apply removeByPath_mem hf
        intro he
        rw [he] at hufc
        exact hc.2 hufc
      · simp only [if_neg hc]
        exact hf
    · rw [if_neg hq]
      exact hf

/-! The archiver fold. -/

/-- A file qualifies for archiving when strictly older than the cutoff and
its zip write does not fail. -/
def archQual (cutoff : Int) (wf : List (List String)) (f : FileEntry) : Bool :=
  decide (f.mtime < cutoff) && ! wf.contains f.path

theorem archStep_skip_young {cutoff : Int} {wf uf : List (List String)} {acc : ArchAcc}
    {f : FileEntry} (h : ¬ f.mtime < cutoff) : archStep cutoff wf uf acc f = acc := by
  unfold archStep
  rw [if_neg h]

theorem archStep_skip_wf {cutoff : Int} {wf uf : List (List String)} {acc : ArchAcc}
    {f : FileEntry} (h : f.mtime < cutoff) (hw : wf.contains f.path = true) :
    archStep cutoff wf uf acc f = acc := by
  unfold archStep
  rw [if_pos h, if_pos hw]

theorem archStep_write {cutoff : Int} {wf uf : List (List String)} {acc : ArchAcc}
    {f : FileEntry} (h : f.mtime < cutoff) (hw : wf.contains f.path = false) :
    archStep cutoff wf uf acc f =
      { entries := acc.entries ++ [(f.path, f.content)],
        names := acc.names ++ [f.path],
        total := acc.total + f.size,
        cur := if uf.contains f.path then acc.cur else removeByPath acc.cur f.path } := by
  unfold archStep
  rw [if_pos h, hw]
  simp

theorem archFold_entries (cutoff : Int) (wf uf : List (List String)) :
    ∀ (l : List FileEntry) (acc : ArchAcc),
      (l.foldl (archStep cutoff wf uf) acc).entries
        = acc.entries ++ (l.filter (archQual cutoff wf)).map (fun f => (f.path, f.content)) := by
  intro l
  induction l with
  | nil => intro acc; simp
  | cons f rest ih =>
    intro acc
    rw [List.foldl_cons, ih]
    by_cases hq : f.mtime < cutoff
    · cases hw : wf.contains f.path with
      | true =>
        rw [archStep_skip_wf hq hw]
        have : archQual cutoff wf f = false := by simp only [archQual, hw, Bool.not_true, Bool.and_false]
        simp [List.filter_cons, this]
      | false =>
        rw [archStep_write hq hw]
        have : archQual cutoff wf f = true := by
          simp only [archQual, hw, Bool.not_false, Bool.and_true]
          exact decide_eq_true hq
        simp [List.filter_cons, this]
    · rw [archStep_skip_young hq]
      have : archQual cutoff wf f = false := by simp only [archQual, decide_eq_false hq, Bool.false_and]
      simp [List.filter_cons, this]

theorem archFold_names (cutoff : Int) (wf uf : List (List String)) :
    ∀ (l : List FileEntry) (acc : ArchAcc),
      (l.foldl (archStep cutoff wf uf) acc).names
        = acc.names ++ (l.filter (archQual cutoff wf)).map FileEntry.path := by
  intro l
  induction l with
  | nil => intro acc; simp
  | cons f rest ih =>
    intro acc
    rw [List.foldl_cons, ih]
    by_cases hq : f.mtime < cutoff
    · cases hw : wf.contains f.path with
      | true =>
        rw [archStep_skip_wf hq hw]
        have : archQual cutoff wf f = false := by simp only [archQual, hw, Bool.not_true, Bool.and_false]
        simp [List.filter_cons, this]
      | false =>
        rw [archStep_write hq hw]
        have : archQual cutoff wf f = true := by
          simp only [archQual, hw, Bool.not_false, Bool.and_true]
          exact decide_eq_true hq
        simp [List.filter_cons, this]
    · rw [archStep_skip_young hq]
      have : archQual cutoff wf f = false := by simp only [archQual, decide_eq_false hq, Bool.false_and]
      simp [List.filter_cons, this]

theorem archFold_total (cutoff : Int) (wf uf : List (List String)) :
    ∀ (l : List FileEntry) (acc : ArchAcc),
      (l.foldl (archStep cutoff wf uf) acc).total
        = acc.total + ((l.filter (archQual cutoff wf)).map FileEntry.size).sum := by
  intro l
  induction l with
  | nil => intro acc; simp
  | cons f rest ih =>
    intro acc
    rw [List.foldl_cons, ih]
    by_cases hq : f.mtime < cutoff
    · cases hw : wf.contains f.path with
      | true =>
        rw [archStep_skip_wf hq hw]
        have : archQual cutoff wf f = false := by simp only [archQual, hw, Bool.not_true, Bool.and_false]
        simp [List.filter_cons, this]
      | false =>
        rw [archStep_write hq hw]
        have : archQual cutoff wf f = true := by
          simp only [archQual, hw, Bool.not_false, Bool.and_true]
          exact decide_eq_true hq
        simp [List.filter_cons, this]
        omega
    · rw [archStep_skip_young hq]
      have : archQual cutoff wf f = false := by simp only [archQual, decide_eq_false hq, Bool.false_and]
      simp [List.filter_cons, this]

theorem archFold_cur_keeps_of_path (cutoff : Int) (wf uf : List (List String)) :
    ∀ (l : List FileEntry) (acc : ArchAcc) (f : FileEntry),
      f ∈ acc.cur →
      (∀ g ∈ l, g.path = f.path → g.mtime < cutoff →
        wf.contains g.path = true ∨ uf.contains g.path = true) →
      f ∈ (l.foldl (archStep cutoff wf uf) acc).cur := by
  intro l
  induction l with
  | nil => intro acc f hf _; exact hf
  | cons g rest ih =>
    intro acc f hf hcond
    rw [List.foldl_cons]
    refine ih _ f ?_ (fun x hx => hcond x (List.mem_cons_of_mem g hx))
    by_cases hq : g.mtime < cutoff
    · cases hw : wf.contains g.path with
      | true => rw [archStep_skip_wf hq hw]; exact hf
      | false =>
        rw [archStep_write hq hw]
        simp only []
        cases hu : uf.contains g.path with
        | true => rw [if_pos rfl]; exact hf
        | false =>
          rw [if_neg Bool.false_ne_true]
          apply removeByPath_mem hf
          intro he
          rcases hcond g (List.mem_cons_self g rest) he.symm hq with hh | hh
          · rw [hw] at hh; cases hh
          · rw [hu] at hh; cases hh
    · rw [archStep_skip_young hq]
      exact hf

theorem archFold_removed (cutoff : Int) (wf uf : List (List String)) :
    ∀ (l : List FileEntry) (acc : ArchAcc) (f : FileEntry),
      f ∈ acc.cur → f ∉ (l.foldl (archStep cutoff wf uf) acc).cur →
      ∃ g ∈ l, g.path = f.path ∧ g.mtime < cutoff ∧
        wf.contains g.path = false ∧ uf.contains g.path = false := by
  intro l
  induction l with
  | nil => intro acc f hf hnf; exact absurd hf hnf
  | cons g rest ih =>
    intro acc f hf hnf
    rw [List.foldl_cons] at hnf
    by_cases hmem : f ∈ (archStep cutoff wf uf acc g).cur
    · obtain ⟨g0, hg0, hrest⟩ := ih _ f hmem hnf
      exact ⟨g0, List.mem_cons_of_mem g hg0, hrest⟩
    · refine ⟨g, List.mem_cons_self g rest, ?_⟩
      by_cases hq : g.mtime < cutoff
      · cases hw : wf.contains g.path with
        | true => rw [archStep_skip_wf hq hw] at hmem; exact absurd hf hmem
        | false =>
          rw [archStep_write hq hw] at hmem
          simp only [] at hmem
          cases hu : uf.contains g.path with
          | true => rw [if_pos hu] at hmem; exact absurd hf hmem
          | false =>
            rw [if_neg (by rw [hu]; exact Bool.false_ne_true)] at hmem
            have hpf : f.path = g.path := by
              by_contra hne
              exact hmem (removeByPath_mem hf hne)
            exact ⟨hpf.symm, hq, rfl, rfl⟩
      · rw [archStep_skip_young hq] at hmem
        exact absurd hf hmem

/-! Unfolding the operations per root status. -/

theorem ne_missing_of_dir {fs : FS} (h : fs.rootStatus = RootStatus.dir) :
    ¬ fs.rootStatus = RootStatus.missing := by
  rw [h]
  intro hh
  cases hh

theorem ne_missing_of_file {fs : FS} (h : fs.rootStatus = RootStatus.fileAt) :
    ¬ fs.rootStatus = RootStatus.missing := by
  rw [h]
  intro hh
  cases hh

theorem walkFiles_dir {fs : FS} (h : fs.rootStatus = RootStatus.dir) :
    walkFiles fs = fs.files := by
  unfold walkFiles
  rw [if_pos h]

theorem walkFiles_file {fs : FS} (h : fs.rootStatus = RootStatus.fileAt) :
    walkFiles fs = [] := by
  unfold walkFiles
  rw [if_neg (by rw [h]; intro hh; cases hh)]

theorem organizeByType_ok {fs : FS} {dr : Bool} {acc : OrgAcc}
    (h : ¬ fs.rootStatus = RootStatus.missing)
    (hw : orgWalk dr fs.moveFails typeDirOf getCategory typeBlocked
      (walkFiles fs) ⟨fs.files, [], []⟩ = Except.ok acc) :
    organizeByType fs dr = Except.ok (Res.report ⟨acc.moved,
      (acc.moved.map (fun kv => kv.2.length)).sum, acc.moved.length, acc.errs, dr⟩,
      { fs with files := acc.cur }) := by
  unfold organizeByType
  rw [if_neg h, hw]

theorem organizeByType_err {fs : FS} {dr : Bool}
    (h : ¬ fs.rootStatus = RootStatus.missing)
    (hw : orgWalk dr fs.moveFails typeDirOf getCategory typeBlocked
      (walkFiles fs) ⟨fs.files, [], []⟩ = Except.error ()) :
    organizeByType fs dr = Except.error () := by
  unfold organizeByType
  rw [if_neg h, hw]

theorem organizeByDate_ok {fs : FS} {dr : Bool} {acc : OrgAcc}
    (h : ¬ fs.rootStatus = RootStatus.missing)
    (hw : orgWalk dr fs.moveFails dateDirOf dateKey dateBlocked
      (walkFiles fs) ⟨fs.files, [], []⟩ = Except.ok acc) :
    organizeByDate fs dr = Except.ok (Res.report ⟨acc.moved,
      (acc.moved.map (fun kv => kv.2.length)).sum, acc.moved.length, acc.errs, dr⟩,
      { fs with files := acc.cur }) := by
  unfold organizeByDate
  rw [if_neg h, hw]

theorem findDuplicates_eq {fs : FS} {d : Bool} (h : ¬ fs.rootStatus = RootStatus.missing) :
    findDuplicates fs d
      = (Res.report ⟨((hashGroups (walkFiles fs) fs.hashFails).foldl
            (dupGroupStep d fs.unlinkFails) ⟨[], 0, fs.files⟩).dups,
          ((hashGroups (walkFiles fs) fs.hashFails).foldl
            (dupGroupStep d fs.unlinkFails) ⟨[], 0, fs.files⟩).dups.length,
          ((hashGroups (walkFiles fs) fs.hashFails).foldl
            (dupGroupStep d fs.unlinkFails) ⟨[], 0, fs.files⟩).space, d⟩,
        { fs with files := ((hashGroups (walkFiles fs) fs.hashFails).foldl
            (dupGroupStep d fs.unlinkFails) ⟨[], 0, fs.files⟩).cur }) := by
  unfold findDuplicates
  rw [if_neg h]

theorem cleanOldFiles_eq {fs : FS} {days : Int} {d : Bool} {now : Int}
    (h : ¬ fs.rootStatus = RootStatus.missing) :
    cleanOldFiles fs days d now
      = (Res.report ⟨((walkFiles fs).foldl
            (cleanStep now (now - days * usPerDay) d fs.unlinkFails) ⟨[], 0, fs.files⟩).old,
          ((walkFiles fs).foldl
            (cleanStep now (now - days * usPerDay) d fs.unlinkFails) ⟨[], 0, fs.files⟩).old.length,
          ((walkFiles fs).foldl
            (cleanStep now (now - days * usPerDay) d fs.unlinkFails) ⟨[], 0, fs.files⟩).total,
          d, days⟩,
        { fs with files := ((walkFiles fs).foldl
            (cleanStep now (now - days * usPerDay) d fs.unlinkFails) ⟨[], 0, fs.files⟩).cur }) := by
  unfold cleanOldFiles
  rw [if_neg h]

theorem archiveFiles_eq {fs : FS} {days : Int} {an : Option String} {now : Int} {z : Nat}
    (hdir : fs.rootStatus = RootStatus.dir)
    (hnb : ¬ fs.files.any (fun g =>
      [an.getD (defaultArchiveName now)].isPrefixOf g.path
        ∧ g.path ≠ [an.getD (defaultArchiveName now)]) = true) :
    archiveFiles fs days an now z
      = Except.ok (Res.report ⟨an.getD (defaultArchiveName now),
          ((fs.files.filter (fun g => g.path ≠ [an.getD (defaultArchiveName now)])).foldl
            (archStep (now - days * usPerDay) fs.zipWriteFails fs.unlinkFails)
            ⟨[], [], 0, fs.files.filter (fun g => g.path ≠ [an.getD (defaultArchiveName now)])⟩).names.length,
          ((fs.files.filter (fun g => g.path ≠ [an.getD (defaultArchiveName now)])).foldl
            (archStep (now - days * usPerDay) fs.zipWriteFails fs.unlinkFails)
            ⟨[], [], 0, fs.files.filter (fun g => g.path ≠ [an.getD (defaultArchiveName now)])⟩).total,
          z,
          (if 0 < ((fs.files.filter (fun g => g.path ≠ [an.getD (defaultArchiveName now)])).foldl
            (archStep (now - days * usPerDay) fs.zipWriteFails fs.unlinkFails)
            ⟨[], [], 0, fs.files.filter (fun g => g.path ≠ [an.getD (defaultArchiveName now)])⟩).total
           then (1 - (z : Rat) / (((fs.files.filter (fun g => g.path ≠ [an.getD (defaultArchiveName now)])).foldl
            (archStep (now - days * usPerDay) fs.zipWriteFails fs.unlinkFails)
            ⟨[], [], 0, fs.files.filter (fun g => g.path ≠ [an.getD (defaultArchiveName now)])⟩).total : Rat)) * 100
           else 0),
          ((fs.files.filter (fun g => g.path ≠ [an.getD (defaultArchiveName now)])).foldl
            (archStep (now - days * usPerDay) fs.zipWriteFails fs.unlinkFails)
            ⟨[], [], 0, fs.files.filter (fun g => g.path ≠ [an.getD (defaultArchiveName now)])⟩).names.take 20⟩,
        { fs with files := ((fs.files.filter (fun g => g.path ≠ [an.getD (defaultArchiveName now)])).foldl
            (archStep (now - days * usPerDay) fs.zipWriteFails fs.unlinkFails)
            ⟨[], [], 0, fs.files.filter (fun g => g.path ≠ [an.getD (defaultArchiveName now)])⟩).cur
          ++ [⟨[an.getD (defaultArchiveName now)], [],
              some ((fs.files.filter (fun g => g.path ≠ [an.getD (defaultArchiveName now)])).foldl
                (archStep (now - days * usPerDay) fs.zipWriteFails fs.unlinkFails)
                ⟨[], [], 0, fs.files.filter (fun g => g.path ≠ [an.getD (defaultArchiveName now)])⟩).entries,
              z, now⟩] }) := by
  unfold archiveFiles
  rw [if_neg (ne_missing_of_dir hdir), if_neg (by rw [hdir]; intro hh; cases hh), if_neg hnb]

theorem extractArchives_eq {fs : FS} {d : Bool} {now : Int}
    (h : ¬ fs.rootStatus = RootStatus.missing) :
    extractArchives fs d now
      = (Res.report ⟨((walkFiles fs).foldl (extStep d fs.unlinkFails now) ⟨[], [], fs.files⟩).extracted,
          ((walkFiles fs).foldl (extStep d fs.unlinkFails now) ⟨[], [], fs.files⟩).extracted.length,
          ((walkFiles fs).foldl (extStep d fs.unlinkFails now) ⟨[], [], fs.files⟩).errs, d⟩,
        { fs with files := ((walkFiles fs).foldl (extStep d fs.unlinkFails now) ⟨[], [], fs.files⟩).cur }) := by
  unfold extractArchives
  rw [if_neg h]

/-! Membership in the moved_files dictionary. -/

theorem pushKey_mem_self (m : List (String × List String)) (k v : String) :
    ∃ l, (k, l) ∈ pushKey m k v ∧ v ∈ l := by
  unfold pushKey
  by_cases h : m.any (fun kv => kv.1 = k) = true
  · rw [if_pos h]
    rw [List.any_eq_true] at h
    obtain ⟨e, he, hek⟩ := h
    simp only [decide_eq_true_eq] at hek
    refine ⟨e.2 ++ [v], List.mem_map.mpr ⟨e, he, ?_⟩, by simp⟩
    rw [if_pos hek, hek]
  · rw [if_neg h]
    exact ⟨[v], by simp, by simp⟩

theorem pushKey_mem_mono {m : List (String × List String)} {k0 : String} {l0 : List String}
    {v0 : String} (h : (k0, l0) ∈ m) (hv : v0 ∈ l0) (k v : String) :
    ∃ l1, (k0, l1) ∈ pushKey m k v ∧ v0 ∈ l1 := by
  unfold pushKey
  by_cases ha : m.any (fun kv => kv.1 = k) = true
  · rw [if_pos ha]
    by_cases hk : k0 = k
    · refine ⟨l0 ++ [v], List.mem_map.mpr ⟨(k0, l0), h, ?_⟩, by simp [hv]⟩
      simp [hk]
    · refine ⟨l0, List.mem_map.mpr ⟨(k0, l0), h, ?_⟩, hv⟩
      simp [hk]
  · rw [if_neg ha]
    exact ⟨l0, List.mem_append.mpr (Or.inl h), hv⟩

theorem orgWalk_moved_mono {dr : Bool} {mf : List (List String)}
    {dirOf : FileEntry → List String} {keyOf : FileEntry → String}
    {blocked : List FileEntry → List String → Bool} :
    ∀ (todo : List FileEntry) (acc acc2 : OrgAcc) (k0 : String) (l0 : List String) (v0 : String),
      orgWalk dr mf dirOf keyOf blocked todo acc = Except.ok acc2 →
      (k0, l0) ∈ acc.moved → v0 ∈ l0 →
      ∃ l1, (k0, l1) ∈ acc2.moved ∧ v0 ∈ l1 := by
  intro todo
  induction todo with
  | nil =>
    intro acc acc2 k0 l0 v0 h hm hv
    rw [orgWalk_nil] at h
    cases h
    exact ⟨l0, hm, hv⟩
  | cons f rest ih =>
    intro acc acc2 k0 l0 v0 h hm hv
    by_cases hs : f.path.dropLast = dirOf f
    · rw [orgWalk_cons_ok (orgStep_skip hs)] at h
      exact ih _ _ _ _ _ h hm hv
    · cases dr with
      | true =>
        rw [orgWalk_cons_ok (orgStep_dry hs)] at h
        obtain ⟨l1, hm1, hv1⟩ := pushKey_mem_mono hm hv (keyOf f) f.name
        exact ih _ _ _ _ _ h hm1 hv1
      | false =>
        cases hb : blocked acc.cur (dirOf f) with
        | true =>
          rw [orgWalk_cons_err (orgStep_blocked hs hb)] at h
          cases h
        | false =>
          cases hmf : mf.contains f.path with
          | true =>
            rw [orgWalk_cons_ok (orgStep_movefail hs hb hmf)] at h
            exact ih _ _ _ _ _ h hm hv
          | false =>
            rw [orgWalk_cons_ok (orgStep_move hs hb hmf)] at h
            obtain ⟨l1, hm1, hv1⟩ := pushKey_mem_mono hm hv (keyOf f) f.name
            exact ih _ _ _ _ _ h hm1 hv1

theorem orgWalk_dry_mem {mf : List (List String)} {dirOf : FileEntry → List String}
    {keyOf : FileEntry → String} {blocked : List FileEntry → List String → Bool} :
    ∀ (todo : List FileEntry) (acc acc2 : OrgAcc),
      orgWalk true mf dirOf keyOf blocked todo acc = Except.ok acc2 →
      ∀ f0 ∈ todo, ¬ f0.path.dropLast = dirOf f0 →
      ∃ l, (keyOf f0, l) ∈ acc2.moved ∧ f0.name ∈ l := by
  intro todo
  induction todo with
  | nil => intro acc acc2 _ f0 hf0; cases hf0
  | cons f rest ih =>
    intro acc acc2 h f0 hf0 hns
    by_cases hf : f = f0
    · subst hf
      rw [orgWalk_cons_ok (orgStep_dry hns)] at h
      obtain ⟨l, hl, hv⟩ := pushKey_mem_self acc.moved (keyOf f) f.name
      exact orgWalk_moved_mono rest _ acc2 _ _ _ h hl hv
    · have hf0r : f0 ∈ rest := by
        rcases List.mem_cons.mp hf0 with he | hr
        · exact absurd he.symm hf
        · exact hr
      by_cases hs : f.path.dropLast = dirOf f
      · rw [orgWalk_cons_ok (orgStep_skip hs)] at h
        exact ih _ _ h f0 hf0r hns
      · rw [orgWalk_cons_ok (orgStep_dry hs)] at h
        exact ih _ _ h f0 hf0r hns

/-! Example states used by the witnesses. -/

/-- A small healthy tree: one top-level image, one nested duplicate pair. -/
def exFS : FS := ⟨RootStatus.dir,
  [⟨["a.jpg"], [1], none, 10, 100⟩,
   ⟨["sub", "b.txt"], [7], none, 5, 200⟩,
   ⟨["c.txt"], [7], none, 5, 300⟩], [], [], [], []⟩

/-- A root that does not exist. -/
def exMissing : FS := ⟨RootStatus.missing, [], [], [], [], []⟩

/-- A root path that exists but is a regular file. -/
def exRootFile : FS := ⟨RootStatus.fileAt, [], [], [], [], []⟩

/-- C3 (amended): every operation fails fast in-band, with the tree untouched,
exactly when the resolved root does not exist; existence is the only check. -/
theorem C3_missing_root_fails_fast (fs : FS) (dr del : Bool) (days now : Int)
    (an : Option String) (z : Nat) (h : fs.rootStatus = RootStatus.missing) :
    organizeByType fs dr = Except.ok (Res.pathError, fs) ∧
    organizeByDate fs dr = Except.ok (Res.pathError, fs) ∧
    findDuplicates fs del = (Res.pathError, fs) ∧
    cleanOldFiles fs days del now = (Res.pathError, fs) ∧
    getStats fs = (Res.pathError, fs) ∧
    archiveFiles fs days an now z = Except.ok (Res.pathError, fs) ∧
    extractArchives fs del now = (Res.pathError, fs) := by
  obtain ⟨rs, files, hfl, ufl, mfl, zfl⟩ := fs
  simp only [] at h
  subst h
  exact ⟨rfl, rfl, rfl, rfl, rfl, rfl, rfl⟩

/-- C3 witness: the amended theorem applied to a concrete missing root. -/
theorem C3_missing_root_fails_fast_witness :
    organizeByType exMissing false = Except.ok (Res.pathError, exMissing) ∧
    organizeByDate exMissing false = Except.ok (Res.pathError, exMissing) ∧
    findDuplicates exMissing false = (Res.pathError, exMissing) ∧
    cleanOldFiles exMissing 90 false 0 = (Res.pathError, exMissing) ∧
    getStats exMissing = (Res.pathError, exMissing) ∧
    archiveFiles exMissing 90 none 0 0 = Except.ok (Res.pathError, exMissing) ∧
    extractArchives exMissing false 0 = (Res.pathError, exMissing) :=
  C3_missing_root_fails_fast exMissing false false 90 0 none 0 rfl

/-- C3 counterexample: a root that exists as a regular file passes the
exists() check, so organize-by-type returns an ok report with an empty scan
instead of the claimed path-not-found failure. -/
theorem C3_root_is_file_not_rejected :
    organizeByType exRootFile false
      = Except.ok (Res.report ⟨[], 0, 0, [], false⟩, exRootFile) := by
  have hw : orgWalk false exRootFile.moveFails typeDirOf getCategory typeBlocked
      (walkFiles exRootFile) ⟨exRootFile.files, [], []⟩ = Except.ok ⟨[], [], []⟩ := rfl
  exact organizeByType_ok (by intro hh; cases hh) hw

/-- C1: dryRun=true and delete=false leave the file set untouched while the
ok report still lists what would happen. -/
theorem C1_dry_run_frame (fs : FS) (days now : Int) (h : fs.rootStatus = RootStatus.dir) :
    (∃ r : OrgReport, organizeByType fs true = Except.ok (Res.report r, fs)
      ∧ r.dry_run = true ∧ r.errors = []
      ∧ ∀ f ∈ fs.files, ¬ f.path.dropLast = typeDirOf f →
          ∃ l, (getCategory f, l) ∈ r.moved_files ∧ f.name ∈ l) ∧
    (∃ r : OrgReport, organizeByDate fs true = Except.ok (Res.report r, fs)
      ∧ r.dry_run = true ∧ r.errors = []
      ∧ ∀ f ∈ fs.files, ¬ f.path.dropLast = dateDirOf f →
          ∃ l, (dateKey f, l) ∈ r.moved_files ∧ f.name ∈ l) ∧
    (∃ r : DupReport, findDuplicates fs false = (Res.report r, fs)
      ∧ r.deleted = false
      ∧ r.duplicates = (hashGroups fs.files fs.hashFails).flatMap dupEntriesOfGroup) ∧
    (∃ r : CleanReport, cleanOldFiles fs days false now = (Res.report r, fs)
      ∧ r.deleted = false
      ∧ r.old_files = (fs.files.filter
          (fun f => decide (f.mtime < now - days * usPerDay))).map (oldEntryOf now)) := by
  refine ⟨?_, ?_, ?_, ?_⟩
  · obtain ⟨m, hm⟩ := @orgWalk_dry fs.moveFails typeDirOf getCategory typeBlocked
      (walkFiles fs) ⟨fs.files, [], []⟩
    refine ⟨⟨m, (m.map (fun kv => kv.2.length)).sum, m.length, [], true⟩, ?_, rfl, rfl, ?_⟩
    · exact organizeByType_ok (ne_missing_of_dir h) hm
    · intro f hf hns
      have hx := orgWalk_dry_mem (walkFiles fs) ⟨fs.files, [], []⟩ _ hm f
        (by rw [walkFiles_dir h]; exact hf) hns
      simpa using hx
  · obtain ⟨m, hm⟩ := @orgWalk_dry fs.moveFails dateDirOf dateKey dateBlocked
      (walkFiles fs) ⟨fs.files, [], []⟩
    refine ⟨⟨m, (m.map (fun kv => kv.2.length)).sum, m.length, [], true⟩, ?_, rfl, rfl, ?_⟩
    · exact organizeByDate_ok (ne_missing_of_dir h) hm
    · intro f hf hns
      have hx := orgWalk_dry_mem (walkFiles fs) ⟨fs.files, [], []⟩ _ hm f
        (by rw [walkFiles_dir h]; exact hf) hns
      simpa using hx
  · have hcur := dupFold_cur_nodel fs.unlinkFails
      (hashGroups (walkFiles fs) fs.hashFails) ⟨[], 0, fs.files⟩
    refine ⟨⟨((hashGroups (walkFiles fs) fs.hashFails).foldl
        (dupGroupStep false fs.unlinkFails) ⟨[], 0, fs.files⟩).dups,
      ((hashGroups (walkFiles fs) fs.hashFails).foldl
        (dupGroupStep false fs.unlinkFails) ⟨[], 0, fs.files⟩).dups.length,
      ((hashGroups (walkFiles fs) fs.hashFails).foldl
        (dupGroupStep false fs.unlinkFails) ⟨[], 0, fs.files⟩).space, false⟩, ?_, rfl, ?_⟩
    · rw [findDuplicates_eq (ne_missing_of_dir h), hcur]
    · have hd := dupFold_dups false fs.unlinkFails
        (hashGroups (walkFiles fs) fs.hashFails) ⟨[], 0, fs.files⟩
      simp only [] at hd
      rw [hd, walkFiles_dir h]
      simp
  · have hcur := cleanFold_cur_nodel now (now - days * usPerDay) fs.unlinkFails
      (walkFiles fs) ⟨[], 0, fs.files⟩
    refine ⟨⟨((walkFiles fs).foldl
        (cleanStep now (now - days * usPerDay) false fs.unlinkFails) ⟨[], 0, fs.files⟩).old,
      ((walkFiles fs).foldl
        (cleanStep now (now - days * usPerDay) false fs.unlinkFails) ⟨[], 0, fs.files⟩).old.length,
      ((walkFiles fs).foldl
        (cleanStep now (now - days * usPerDay) false fs.unlinkFails) ⟨[], 0, fs.files⟩).total,
      false, days⟩, ?_, rfl, ?_⟩
    · rw [cleanOldFiles_eq (ne_missing_of_dir h), hcur]
    · have ho := cleanFold_old now (now - days * usPerDay) false fs.unlinkFails
        (walkFiles fs) ⟨[], 0, fs.files⟩
      simp only [] at ho
      rw [ho, walkFiles_dir h]
      simp

/-- C1 witness: the dry-run guarantee applied to a concrete tree. -/
theorem C1_dry_run_frame_witness :
    ∃ r : DupReport, findDuplicates exFS false = (Res.report r, exFS)
      ∧ r.deleted = false
      ∧ r.duplicates = (hashGroups exFS.files exFS.hashFails).flatMap dupEntriesOfGroup :=
  (C1_dry_run_frame exFS 90 0 rfl).2.2.1

/-- Example state with one duplicate whose deletion fails. -/
def exFSu : FS := ⟨RootStatus.dir,
  [⟨["a.jpg"], [1], none, 10, 100⟩,
   ⟨["sub", "b.txt"], [7], none, 5, 200⟩,
   ⟨["c.txt"], [7], none, 5, 300⟩], [], [["sub", "b.txt"]], [], []⟩

/-- C9: the deleted field of the find-duplicates and clean-old-files reports
always equals the request delete flag, and the report is identical whatever
deletions fail; a file whose unlink raises stays on disk. -/
theorem C9_deleted_flag_report_invariant (fs : FS) (u1 u2 : List (List String))
    (d : Bool) (days now : Int) (h : fs.rootStatus = RootStatus.dir) :
    ((findDuplicates { fs with unlinkFails := u1 } d).1
      = (findDuplicates { fs with unlinkFails := u2 } d).1) ∧
    ((cleanOldFiles { fs with unlinkFails := u1 } days d now).1
      = (cleanOldFiles { fs with unlinkFails := u2 } days d now).1) ∧
    (∃ r : DupReport, (findDuplicates fs d).1 = Res.report r ∧ r.deleted = d) ∧
    (∃ r : CleanReport, (cleanOldFiles fs days d now).1 = Res.report r ∧ r.deleted = d) ∧
    (∀ f ∈ fs.files, fs.unlinkFails.contains f.path = true →
      f ∈ (findDuplicates fs d).2.files ∧ f ∈ (cleanOldFiles fs days d now).2.files) := by
  have h1 : ({ fs with unlinkFails := u1 } : FS).rootStatus = RootStatus.dir := h
  have h2 : ({ fs with unlinkFails := u2 } : FS).rootStatus = RootStatus.dir := h
  have hw1 : walkFiles { fs with unlinkFails := u1 } = fs.files := walkFiles_dir h1
  have hw2 : walkFiles { fs with unlinkFails := u2 } = fs.files := walkFiles_dir h2
  refine ⟨?_, ?_, ?_, ?_, ?_⟩
  · rw [findDuplicates_eq (ne_missing_of_dir h1), findDuplicates_eq (ne_missing_of_dir h2),
      hw1, hw2]
    have hd1 := dupFold_dups d u1 (hashGroups fs.files fs.hashFails) ⟨[], 0, fs.files⟩
    have hd2 := dupFold_dups d u2 (hashGroups fs.files fs.hashFails) ⟨[], 0, fs.files⟩
    have hs1 := dupFold_space d u1 (hashGroups fs.files fs.hashFails) ⟨[], 0, fs.files⟩
    have hs2 := dupFold_space d u2 (hashGroups fs.files fs.hashFails) ⟨[], 0, fs.files⟩
    rw [hd1, hd2, hs1, hs2]
  · rw [cleanOldFiles_eq (ne_missing_of_dir h1), cleanOldFiles_eq (ne_missing_of_dir h2),
      hw1, hw2]
    have ho1 := cleanFold_old now (now - days * usPerDay) d u1 fs.files ⟨[], 0, fs.files⟩
    have ho2 := cleanFold_old now (now - days * usPerDay) d u2 fs.files ⟨[], 0, fs.files⟩
    have ht1 := cleanFold_total now (now - days * usPerDay) d u1 fs.files ⟨[], 0, fs.files⟩
    have ht2 := cleanFold_total now (now - days * usPerDay) d u2 fs.files ⟨[], 0, fs.files⟩
    rw [ho1, ho2, ht1, ht2]
  · exact ⟨_, by rw [findDuplicates_eq (ne_missing_of_dir h)], rfl⟩
  · exact ⟨_, by rw [cleanOldFiles_eq (ne_missing_of_dir h)], rfl⟩
  · intro f hf hu
    constructor
    · rw [findDuplicates_eq (ne_missing_of_dir h)]
      exact dupFold_cur_keeps d fs.unlinkFails _ ⟨[], 0, fs.files⟩ f hf hu
    · rw [cleanOldFiles_eq (ne_missing_of_dir h)]
      exact cleanFold_cur_keeps now (now - days * usPerDay) d fs.unlinkFails _ ⟨[], 0, fs.files⟩ f hf hu

/-- C9 witness: a concrete tree with one failing deletion; that file
survives both operations. -/
theorem C9_deleted_flag_report_invariant_witness :
    (⟨["sub", "b.txt"], [7], none, 5, 200⟩ : FileEntry) ∈ (findDuplicates exFSu true).2.files ∧
    (⟨["sub", "b.txt"], [7], none, 5, 200⟩ : FileEntry) ∈ (cleanOldFiles exFSu 0 true 400).2.files :=
  (C9_deleted_flag_report_invariant exFSu [] [["x"]] true 0 400 rfl).2.2.2.2
    ⟨["sub", "b.txt"], [7], none, 5, 200⟩ (by decide) (by decide)

/-! Convenience forms of the clean and archive folds. -/

def cleanAccOf (fs : FS) (days now : Int) (del : Bool) : CleanAcc :=
  (walkFiles fs).foldl (cleanStep now (now - days * usPerDay) del fs.unlinkFails) ⟨[], 0, fs.files⟩

def archAccOf (fs : FS) (days now : Int) (nm : String) : ArchAcc :=
  (fs.files.filter (fun g => g.path ≠ [nm])).foldl
    (archStep (now - days * usPerDay) fs.zipWriteFails fs.unlinkFails)
    ⟨[], [], 0, fs.files.filter (fun g => g.path ≠ [nm])⟩

theorem cleanOldFiles_eq2 {fs : FS} {days : Int} {d : Bool} {now : Int}
    (h : ¬ fs.rootStatus = RootStatus.missing) :
    cleanOldFiles fs days d now
      = (Res.report ⟨(cleanAccOf fs days now d).old, (cleanAccOf fs days now d).old.length,
          (cleanAccOf fs days now d).total, d, days⟩,
        { fs with files := (cleanAccOf fs days now d).cur }) :=
  cleanOldFiles_eq h

theorem archiveFiles_some_eq {fs : FS} {days : Int} {an : String} {now : Int} {z : Nat}
    (hdir : fs.rootStatus = RootStatus.dir)
    (hnb : ¬ fs.files.any (fun g => [an].isPrefixOf g.path ∧ g.path ≠ [an]) = true) :
    archiveFiles fs days (some an) now z
      = Except.ok (Res.report ⟨an, (archAccOf fs days now an).names.length,
          (archAccOf fs days now an).total, z,
          (if 0 < (archAccOf fs days now an).total
           then (1 - (z : Rat) / ((archAccOf fs days now an).total : Rat)) * 100 else 0),
          (archAccOf fs days now an).names.take 20⟩,
        { fs with files := (archAccOf fs days now an).cur
            ++ [⟨[an], [], some (archAccOf fs days now an).entries, z, now⟩] }) :=
  archiveFiles_eq hdir hnb

theorem cleanAccOf_old (fs : FS) (days now : Int) (d : Bool) :
    (cleanAccOf fs days now d).old
      = ((walkFiles fs).filter (fun f => decide (f.mtime < now - days * usPerDay))).map
        (oldEntryOf now) := by
  unfold cleanAccOf
  rw [cleanFold_old]
  simp

theorem archAccOf_entries (fs : FS) (days now : Int) (nm : String) :
    (archAccOf fs days now nm).entries
      = ((fs.files.filter (fun g => g.path ≠ [nm])).filter
          (archQual (now - days * usPerDay) fs.zipWriteFails)).map
        (fun f => (f.path, f.content)) := by
  unfold archAccOf
  rw [archFold_entries]
  simp

theorem archAccOf_names (fs : FS) (days now : Int) (nm : String) :
    (archAccOf fs days now nm).names
      = ((fs.files.filter (fun g => g.path ≠ [nm])).filter
          (archQual (now - days * usPerDay) fs.zipWriteFails)).map FileEntry.path := by
  unfold archAccOf
  rw [archFold_names]
  simp

theorem archAccOf_total (fs : FS) (days now : Int) (nm : String) :
    (archAccOf fs days now nm).total
      = (((fs.files.filter (fun g => g.path ≠ [nm])).filter
          (archQual (now - days * usPerDay) fs.zipWriteFails)).map FileEntry.size).sum := by
  unfold archAccOf
  rw [archFold_total]
  simp

theorem pathsNodup_filter {l : List FileEntry} (h : pathsNodup l) (p : FileEntry → Bool) :
    pathsNodup (l.filter p) :=
  List.Nodup.sublist (List.Sublist.map _ (List.filter_sublist l)) h

theorem archFold_cur_sub (cutoff : Int) (wf uf : List (List String)) :
    ∀ (l : List FileEntry) (acc : ArchAcc) (f : FileEntry),
      f ∈ (l.foldl (archStep cutoff wf uf) acc).cur → f ∈ acc.cur := by
  intro l
  induction l with
  | nil => intro acc f hf; exact hf
  | cons g rest ih =>
    intro acc f hf
    rw [List.foldl_cons] at hf
    have h2 := ih _ f hf
    by_cases hq : g.mtime < cutoff
    · cases hw : wf.contains g.path with
      | true => rw [archStep_skip_wf hq hw] at h2; exact h2
      | false =>
        rw [archStep_write hq hw] at h2
        simp only [] at h2
        by_cases hu : uf.contains g.path = true
        · rw [if_pos hu] at h2; exact h2
        · rw [if_neg hu] at h2
          exact removeByPath_sub h2
    · rw [archStep_skip_young hq] at h2
      exact h2

/-- C5: the retention comparison of clean-old-files and of the archiver age
filter is strictly older-than: a file at exactly now - daysOld is excluded,
one microsecond older is included. -/
theorem C5_strict_retention_cutoff (fs : FS) (days now : Int) (del : Bool) (an : String)
    (z : Nat) (f : FileEntry)
    (h : fs.rootStatus = RootStatus.dir) (hnd : pathsNodup fs.files) (hf : f ∈ fs.files)
    (hfp : ¬ f.path = [an]) (hwf : fs.zipWriteFails.contains f.path = false)
    (hnb : ¬ fs.files.any (fun g => [an].isPrefixOf g.path ∧ g.path ≠ [an]) = true) :
    ∃ (r : CleanReport) (rep : ArchReport) (fs2 : FS) (entries : List (List String × List Nat)),
      (cleanOldFiles fs days del now).1 = Res.report r ∧
      archiveFiles fs days (some an) now z = Except.ok (Res.report rep, fs2) ∧
      (⟨[an], [], some entries, z, now⟩ : FileEntry) ∈ fs2.files ∧
      (f.mtime < now - days * usPerDay →
        oldEntryOf now f ∈ r.old_files ∧ (f.path, f.content) ∈ entries) ∧
      (f.mtime = now - days * usPerDay →
        oldEntryOf now f ∉ r.old_files ∧ f.path ∉ entries.map Prod.fst) ∧
      (f.mtime = now - days * usPerDay - 1 →
        oldEntryOf now f ∈ r.old_files ∧ (f.path, f.content) ∈ entries) := by
  have hne := ne_missing_of_dir h
  have hold := cleanAccOf_old fs days now del
  rw [walkFiles_dir h] at hold
  have hent := archAccOf_entries fs days now an
  have hin : f.mtime < now - days * usPerDay → oldEntryOf now f ∈ (cleanAccOf fs days now del).old
      ∧ (f.path, f.content) ∈ (archAccOf fs days now an).entries := by
    intro hlt
    constructor
    · rw [hold]
      exact List.mem_map.mpr ⟨f, List.mem_filter.mpr ⟨hf, by simpa using hlt⟩, rfl⟩
    · rw [hent]
      refine List.mem_map.mpr ⟨f, List.mem_filter.mpr ⟨List.mem_filter.mpr ⟨hf, ?_⟩, ?_⟩, rfl⟩
      · simpa using hfp
      · simp only [archQual, hwf, Bool.not_false, Bool.and_true]
        exact decide_eq_true hlt
  refine ⟨_, _, _, (archAccOf fs days now an).entries,
    (by rw [cleanOldFiles_eq2 hne] : (cleanOldFiles fs days del now).1 = _),
    archiveFiles_some_eq h hnb, by simp, ?_, ?_, ?_⟩
  · exact hin
  · intro heq
    constructor
    · rw [hold]
      intro hmem
      obtain ⟨g, hgm, hge⟩ := List.mem_map.mp hmem
      have hgp : g.path = f.path := congrArg OldEntry.file hge
      have hgf : g = f :=
        eq_of_paths_nodup hnd (List.mem_of_mem_filter hgm) hf hgp
      rw [hgf] at hgm
      have := (List.mem_filter.mp hgm).2
      simp only [decide_eq_true_eq] at this
      omega
    · rw [hent]
      intro hmem
      rw [List.map_map] at hmem
      obtain ⟨g, hgm, hge⟩ := List.mem_map.mp hmem
      have hgp : g.path = f.path := hge
      have hgf : g = f := eq_of_paths_nodup hnd
        (List.mem_of_mem_filter (List.mem_of_mem_filter hgm)) hf hgp
      rw [hgf] at hgm
      have hq := (List.mem_filter.mp hgm).2
      simp only [archQual, Bool.and_eq_true, decide_eq_true_eq] at hq
      omega
  · intro heq
    exact hin (by omega)

/-- C5 witness: a tree with one file exactly at the cutoff and one a
microsecond older. -/
theorem C5_strict_retention_cutoff_witness :
    ∃ (r : CleanReport) (rep : ArchReport) (fs2 : FS) (entries : List (List String × List Nat)),
      (cleanOldFiles exFS 0 false 300).1 = Res.report r ∧
      archiveFiles exFS 0 (some "a.zip") 300 22 = Except.ok (Res.report rep, fs2) ∧
      (⟨["a.zip"], [], some entries, 22, 300⟩ : FileEntry) ∈ fs2.files ∧
      ((⟨["c.txt"], [7], none, 5, 300⟩ : FileEntry).mtime < 300 - 0 * usPerDay →
        oldEntryOf 300 ⟨["c.txt"], [7], none, 5, 300⟩ ∈ r.old_files
          ∧ (["c.txt"], [7]) ∈ entries) ∧
      ((⟨["c.txt"], [7], none, 5, 300⟩ : FileEntry).mtime = 300 - 0 * usPerDay →
        oldEntryOf 300 ⟨["c.txt"], [7], none, 5, 300⟩ ∉ r.old_files
          ∧ ["c.txt"] ∉ entries.map Prod.fst) ∧
      ((⟨["c.txt"], [7], none, 5, 300⟩ : FileEntry).mtime = 300 - 0 * usPerDay - 1 →
        oldEntryOf 300 ⟨["c.txt"], [7], none, 5, 300⟩ ∈ r.old_files
          ∧ (["c.txt"], [7]) ∈ entries) :=
  C5_strict_retention_cutoff exFS 0 300 false "a.zip" 22 ⟨["c.txt"], [7], none, 5, 300⟩
    rfl (by unfold pathsNodup; decide) (by decide) (by decide) (by decide) (by decide)

/-- C10: archive-old-files always creates (or truncates into) the container
at root/archiveName; with zero qualifying files the call still returns ok
with zero count and zero ratio, an empty container remains on disk, and the
container is excluded from the walk so it never appears among its own
entries. -/
theorem C10_archive_container (fs : FS) (days now : Int) (an : String) (z : Nat)
    (h : fs.rootStatus = RootStatus.dir)
    (hnb : ¬ fs.files.any (fun g => [an].isPrefixOf g.path ∧ g.path ≠ [an]) = true) :
    ∃ (rep : ArchReport) (fs2 : FS) (entries : List (List String × List Nat)),
      archiveFiles fs days (some an) now z = Except.ok (Res.report rep, fs2) ∧
      (⟨[an], [], some entries, z, now⟩ : FileEntry) ∈ fs2.files ∧
      (∀ g ∈ fs2.files, g.path = [an] → g = ⟨[an], [], some entries, z, now⟩) ∧
      (∀ e ∈ entries, e.1 ≠ [an]) ∧
      ((∀ f ∈ fs.files, ¬ f.path = [an] → ¬ f.mtime < now - days * usPerDay) →
        rep.archived_files = 0 ∧ rep.compression_pct = 0 ∧ entries = [] ∧ rep.files = []) := by
  refine ⟨_, _, (archAccOf fs days now an).entries, archiveFiles_some_eq h hnb,
    by simp, ?_, ?_, ?_⟩
  · intro g hg hgp
    simp only [] at hg
    rcases List.mem_append.mp hg with hm | hm
    · exfalso
      unfold archAccOf at hm
      have hsub := archFold_cur_sub (now - days * usPerDay) fs.zipWriteFails fs.unlinkFails
        (fs.files.filter (fun g => g.path ≠ [an]))
        ⟨[], [], 0, fs.files.filter (fun g => g.path ≠ [an])⟩ g hm
      have := (List.mem_filter.mp hsub).2
      simp only [decide_eq_true_eq] at this
      exact this hgp
    · simpa using hm
  · intro e he
    rw [archAccOf_entries] at he
    obtain ⟨g, hgm, hge⟩ := List.mem_map.mp he
    have hgp : ¬ g.path = [an] := by
      have := (List.mem_filter.mp (List.mem_of_mem_filter hgm)).2
      simpa using this
    rw [← hge]
    simpa using hgp
  · intro hnone
    have hfilt : (fs.files.filter (fun g => g.path ≠ [an])).filter
        (archQual (now - days * usPerDay) fs.zipWriteFails) = [] := by
      rw [List.filter_eq_nil_iff]
      intro a ha
      have ha1 := List.mem_of_mem_filter ha
      have ha2 := (List.mem_filter.mp ha).2
      simp only [decide_eq_true_eq] at ha2
      have hy := hnone a ha1 ha2
      simp only [archQual, decide_eq_false hy, Bool.false_and]
      exact Bool.false_ne_true
    refine ⟨?_, ?_, ?_, ?_⟩
    · show (archAccOf fs days now an).names.length = 0
      rw [archAccOf_names, hfilt]
      rfl
    · show (if 0 < (archAccOf fs days now an).total
          then (1 - (z : Rat) / ((archAccOf fs days now an).total : Rat)) * 100 else 0) = 0
      have ht : (archAccOf fs days now an).total = 0 := by
        rw [archAccOf_total, hfilt]
        rfl
      rw [ht]
      simp
    · rw [archAccOf_entries, hfilt]
      rfl
    · show (archAccOf fs days now an).names.take 20 = []
      rw [archAccOf_names, hfilt]
      rfl

/-- C10 witness: no file older than the cutoff; the empty container is
still created and reported with zero counts. -/
theorem C10_archive_container_witness :
    ∃ (rep : ArchReport) (fs2 : FS) (entries : List (List String × List Nat)),
      archiveFiles exFS 0 (some "a.zip") 0 22 = Except.ok (Res.report rep, fs2) ∧
      (⟨["a.zip"], [], some entries, 22, 0⟩ : FileEntry) ∈ fs2.files ∧
      (∀ g ∈ fs2.files, g.path = ["a.zip"] → g = ⟨["a.zip"], [], some entries, 22, 0⟩) ∧
      (∀ e ∈ entries, e.1 ≠ ["a.zip"]) ∧
      ((∀ f ∈ exFS.files, ¬ f.path = ["a.zip"] → ¬ f.mtime < 0 - 0 * usPerDay) →
        rep.archived_files = 0 ∧ rep.compression_pct = 0 ∧ entries = [] ∧ rep.files = []) :=
  C10_archive_container exFS 0 0 "a.zip" 22 rfl (by decide)

/-- Example state: one old file whose unlink raises. -/
def exArchUF : FS := ⟨RootStatus.dir,
  [⟨["o.txt"], [9], none, 4, -1⟩], [], [["o.txt"]], [], []⟩

/-- C8 counterexample: a per-file failure of the post-write unlink is
swallowed and the file stays on disk, but contrary to the claim it IS
counted in the archived-file count and in the original-size total (the
append and the size accumulation precede the unlink in the source). -/
theorem C8_counterexample :
    ∃ (rep : ArchReport) (fs2 : FS),
      archiveFiles exArchUF 0 (some "a.zip") 0 22 = Except.ok (Res.report rep, fs2) ∧
      rep.archived_files = 1 ∧ rep.original_size = 4 ∧
      (⟨["o.txt"], [9], none, 4, -1⟩ : FileEntry) ∈ fs2.files := by
  refine ⟨_, _, archiveFiles_some_eq rfl (by decide), ?_, ?_, ?_⟩
  · decide
  · decide
  · decide

/-- C8 (amended): qualifying files are written into the container under
their root-relative path and deleted only after a successful write; a
read/write failure is swallowed, leaves the file in place and uncounted;
a failure of the deletion after a successful write is swallowed and leaves
the file in place, but the file is already in the container and counted. -/
theorem C8_archive_per_file (fs : FS) (days now : Int) (an : String) (z : Nat)
    (h : fs.rootStatus = RootStatus.dir) (hnd : pathsNodup fs.files)
    (hnb : ¬ fs.files.any (fun g => [an].isPrefixOf g.path ∧ g.path ≠ [an]) = true) :
    ∃ (rep : ArchReport) (fs2 : FS) (entries : List (List String × List Nat)),
      archiveFiles fs days (some an) now z = Except.ok (Res.report rep, fs2) ∧
      rep.archived_files = entries.length ∧
      rep.original_size = (((fs.files.filter (fun g => g.path ≠ [an])).filter
        (archQual (now - days * usPerDay) fs.zipWriteFails)).map FileEntry.size).sum ∧
      (∀ f ∈ fs.files, ¬ f.path = [an] → f.mtime < now - days * usPerDay →
        fs.zipWriteFails.contains f.path = false → (f.path, f.content) ∈ entries) ∧
      (∀ f ∈ fs.files, ¬ f.path = [an] → f.mtime < now - days * usPerDay →
        fs.zipWriteFails.contains f.path = true →
          f ∈ fs2.files ∧ f.path ∉ entries.map Prod.fst) ∧
      (∀ f ∈ fs.files, ¬ f.path = [an] → f ∉ fs2.files → (f.path, f.content) ∈ entries) ∧
      (∀ f ∈ fs.files, ¬ f.path = [an] → f.mtime < now - days * usPerDay →
        fs.zipWriteFails.contains f.path = false → fs.unlinkFails.contains f.path = true →
          f ∈ fs2.files ∧ (f.path, f.content) ∈ entries) := by
  have hent := archAccOf_entries fs days now an
  have hsnap : ∀ f ∈ fs.files, ¬ f.path = [an] →
      f ∈ fs.files.filter (fun g => g.path ≠ [an]) := by
    intro f hf hfp
    exact List.mem_filter.mpr ⟨hf, by simpa using hfp⟩
  have hndsnap : pathsNodup (fs.files.filter (fun g => g.path ≠ [an])) :=
    pathsNodup_filter hnd _
  have hwrite : ∀ f ∈ fs.files, ¬ f.path = [an] → f.mtime < now - days * usPerDay →
      fs.zipWriteFails.contains f.path = false →
      (f.path, f.content) ∈ (archAccOf fs days now an).entries := by
    intro f hf hfp hlt hwf
    rw [hent]
    refine List.mem_map.mpr ⟨f, List.mem_filter.mpr ⟨hsnap f hf hfp, ?_⟩, rfl⟩
    simp only [archQual, hwf, Bool.not_false, Bool.and_true]
    exact decide_eq_true hlt
  refine ⟨_, _, (archAccOf fs days now an).entries, archiveFiles_some_eq h hnb,
    ?_, ?_, hwrite, ?_, ?_, ?_⟩
  · show (archAccOf fs days now an).names.length = (archAccOf fs days now an).entries.length
    rw [hent, archAccOf_names]
    simp
  · show (archAccOf fs days now an).total = _
    rw [archAccOf_total]
  · intro f hf hfp hlt hwft
    constructor
    · simp only []
      refine List.mem_append.mpr (Or.inl ?_)
      unfold archAccOf
      exact archFold_cur_keeps_of_path (now - days * usPerDay) fs.zipWriteFails fs.unlinkFails
        _ _ f (hsnap f hf hfp)
        (fun g hg hgp _ => Or.inl (by rw [hgp]; exact hwft))
    · rw [hent]
      intro hmem
      rw [List.map_map] at hmem
      obtain ⟨g, hgm, hge⟩ := List.mem_map.mp hmem
      have hgf : g = f := eq_of_paths_nodup hnd
        (List.mem_of_mem_filter (List.mem_of_mem_filter hgm)) hf hge
      rw [hgf] at hgm
      have hq := (List.mem_filter.mp hgm).2
      simp only [archQual, Bool.and_eq_true] at hq
      rw [hwft] at hq
      simp at hq
  · intro f hf hfp hnf
    simp only [] at hnf
    have hfs : f ∈ fs.files.filter (fun g => g.path ≠ [an]) := hsnap f hf hfp
    have hnc : f ∉ (archAccOf fs days now an).cur := by
      intro hc
      exact hnf (List.mem_append.mpr (Or.inl hc))
    unfold archAccOf at hnc
    obtain ⟨g, hgm, hgp, hglt, hgw, hgu⟩ := archFold_removed (now - days * usPerDay)
      fs.zipWriteFails fs.unlinkFails _ _ f hfs hnc
    have hgf : g = f := eq_of_paths_nodup hndsnap hgm hfs hgp
    rw [hgf] at hglt hgw
    exact hwrite f hf hfp hglt hgw
  · intro f hf hfp hlt hwf huf
    refine ⟨?_, hwrite f hf hfp hlt hwf⟩
    simp only []
    refine List.mem_append.mpr (Or.inl ?_)
    unfold archAccOf
    exact archFold_cur_keeps_of_path (now - days * usPerDay) fs.zipWriteFails fs.unlinkFails
      _ _ f (hsnap f hf hfp)
      (fun g hg hgp _ => Or.inr (by rw [hgp]; exact huf))

/-- C8 witness: the amended behavior at the concrete failing-unlink state. -/
theorem C8_archive_per_file_witness :
    ∃ (rep : ArchReport) (fs2 : FS) (entries : List (List String × List Nat)),
      archiveFiles exArchUF 0 (some "a.zip") 0 22 = Except.ok (Res.report rep, fs2) ∧
      rep.archived_files = entries.length ∧
      rep.original_size = (((exArchUF.files.filter (fun g => g.path ≠ ["a.zip"])).filter
        (archQual (0 - 0 * usPerDay) exArchUF.zipWriteFails)).map FileEntry.size).sum ∧
      (∀ f ∈ exArchUF.files, ¬ f.path = ["a.zip"] → f.mtime < 0 - 0 * usPerDay →
        exArchUF.zipWriteFails.contains f.path = false → (f.path, f.content) ∈ entries) ∧
      (∀ f ∈ exArchUF.files, ¬ f.path = ["a.zip"] → f.mtime < 0 - 0 * usPerDay →
        exArchUF.zipWriteFails.contains f.path = true →
          f ∈ fs2.files ∧ f.path ∉ entries.map Prod.fst) ∧
      (∀ f ∈ exArchUF.files, ¬ f.path = ["a.zip"] → f ∉ fs2.files →
        (f.path, f.content) ∈ entries) ∧
      (∀ f ∈ exArchUF.files, ¬ f.path = ["a.zip"] → f.mtime < 0 - 0 * usPerDay →
        exArchUF.zipWriteFails.contains f.path = false →
        exArchUF.unlinkFails.contains f.path = true →
          f ∈ fs2.files ∧ (f.path, f.content) ∈ entries) :=
  C8_archive_per_file exArchUF 0 0 "a.zip" 22 rfl (by unfold pathsNodup; decide) (by decide)

/-- Example state: a regular file occupies the path of the Other category
directory, so organize-by-type cannot mkdir it. -/
def exBlock : FS := ⟨RootStatus.dir, [⟨["Other"], [], none, 0, 0⟩], [], [], [], []⟩

/-- Example state: one file whose shutil.move raises. -/
def exMoveFail : FS := ⟨RootStatus.dir, [⟨["x.pdf"], [1], none, 1, 0⟩], [], [], [["x.pdf"]], []⟩

/-- C2 counterexample: with a regular file named Other at the root, the
category mkdir of organize-by-type raises FileExistsError outside the
per-file try block, so the call terminates with an uncaught exception
instead of the claimed in-band structured result. -/
theorem C2_counterexample : organizeByType exBlock false = Except.error () := by decide

/-- C2 (amended): path errors and per-file move failures are reported
in-band; organize-by-type raises out-of-band only on a category-directory
creation failure and returns ok whenever no file occupies a category path,
with every failed move recorded in the report error list; archive-old-files
returns ok in-band whenever nothing blocks creating the container. -/
theorem C2_in_band_errors (fs : FS) (days now : Int) (an : String) (z : Nat)
    (h : fs.rootStatus = RootStatus.dir) (hnc : noCatFile fs.files)
    (hnb : ¬ fs.files.any (fun g => [an].isPrefixOf g.path ∧ g.path ≠ [an]) = true) :
    (∃ (r : OrgReport) (fs2 : FS),
      organizeByType fs false = Except.ok (Res.report r, fs2) ∧
      ∀ f ∈ fs.files, ¬ f.path.dropLast = typeDirOf f →
        fs.moveFails.contains f.path = true → moveErr f ∈ r.errors) ∧
    (∃ out, archiveFiles fs days (some an) now z = Except.ok out) := by
  constructor
  · obtain ⟨acc2, hw⟩ := @orgWalk_type_ok fs.moveFails (walkFiles fs)
      ⟨fs.files, [], []⟩ hnc
    refine ⟨_, _, organizeByType_ok (ne_missing_of_dir h) hw, ?_⟩
    intro f hf hns hmf
    exact orgWalk_records_movefail (walkFiles fs) _ acc2 f
      (by rw [walkFiles_dir h]; exact hf) hns hmf hw
  · exact ⟨_, archiveFiles_some_eq h hnb⟩

/-- C2 witness: a concrete tree with one failing move; the failure lands
in the in-band error list. -/
theorem C2_in_band_errors_witness :
    ∃ (r : OrgReport) (fs2 : FS),
      organizeByType exMoveFail false = Except.ok (Res.report r, fs2) ∧
      ∀ f ∈ exMoveFail.files, ¬ f.path.dropLast = typeDirOf f →
        exMoveFail.moveFails.contains f.path = true → moveErr f ∈ r.errors :=
  (C2_in_band_errors exMoveFail 0 0 "a.zip" 0 rfl
    (by unfold noCatFile; decide) (by decide)).1

/-- C4: in every digest group of two or more files, the keep survivor is
the first-enumerated file of maximal modification time, every other member
is reported as a duplicate carrying the keep relative path, and the
reported space saved is the sum of the reported duplicate sizes. -/
theorem C4_duplicates_keep_newest (fs : FS) (d : Bool)
    (h : fs.rootStatus = RootStatus.dir) :
    ∃ r : DupReport, (findDuplicates fs d).1 = Res.report r ∧
      r.space_saved = (r.duplicates.map DupEntry.size).sum ∧
      ∀ p ∈ hashGroups fs.files fs.hashFails, 1 < p.2.length →
        (∀ x ∈ p.2, fileDigest x = p.1) ∧
        ∃ keep pre post, p.2 = pre ++ keep :: post ∧
          (∀ x ∈ pre, x.mtime < keep.mtime) ∧
          (∀ x ∈ p.2, x.mtime ≤ keep.mtime) ∧
          (∀ x ∈ p.2, x ≠ keep → dupEntryOf keep x ∈ r.duplicates) := by
  have hne := ne_missing_of_dir h
  have hgs : hashGroups (walkFiles fs) fs.hashFails = hashGroups fs.files fs.hashFails := by
    rw [walkFiles_dir h]
  have hdups := dupFold_dups d fs.unlinkFails (hashGroups (walkFiles fs) fs.hashFails)
    ⟨[], 0, fs.files⟩
  have hspace := dupFold_space d fs.unlinkFails (hashGroups (walkFiles fs) fs.hashFails)
    ⟨[], 0, fs.files⟩
  refine ⟨⟨((hashGroups (walkFiles fs) fs.hashFails).foldl
      (dupGroupStep d fs.unlinkFails) ⟨[], 0, fs.files⟩).dups,
    ((hashGroups (walkFiles fs) fs.hashFails).foldl
      (dupGroupStep d fs.unlinkFails) ⟨[], 0, fs.files⟩).dups.length,
    ((hashGroups (walkFiles fs) fs.hashFails).foldl
      (dupGroupStep d fs.unlinkFails) ⟨[], 0, fs.files⟩).space, d⟩,
    (by rw [findDuplicates_eq hne]), ?_, ?_⟩
  · simp only [hdups, hspace]
    simp
  · intro p hp hlen
    refine ⟨hashGroups_digest fs.files fs.hashFails p hp, ?_⟩
    cases hs : sortByDesc (fun f => f.mtime) p.2 with
    | nil =>
      exfalso
      have := sortByDesc_eq_nil hs
      rw [this] at hlen
      simp at hlen
    | cons keep dups =>
      obtain ⟨pre, post, hdec, hpre⟩ := sortByDesc_head_first _ p.2 keep dups hs
      refine ⟨keep, pre, post, hdec, hpre, sortByDesc_head_max _ p.2 keep dups hs, ?_⟩
      intro x hx hxk
      have hxd : x ∈ dups := sortByDesc_tail_mem _ hs x hx hxk
      have hin : dupEntryOf keep x ∈ dupEntriesOfGroup p := by
        rw [dupEntriesOfGroup_big hlen hs]
        exact List.mem_map.mpr ⟨x, hxd, rfl⟩
      simp only [hdups]
      simp only [List.nil_append]
      rw [hgs]
      exact List.mem_flatMap.mpr ⟨p, hp, hin⟩

/-- C4 witness: two equal-content files, the newer kept, the older reported. -/
theorem C4_duplicates_keep_newest_witness :
    ∃ r : DupReport, (findDuplicates exFS false).1 = Res.report r ∧
      r.space_saved = (r.duplicates.map DupEntry.size).sum ∧
      ∀ p ∈ hashGroups exFS.files exFS.hashFails, 1 < p.2.length →
        (∀ x ∈ p.2, fileDigest x = p.1) ∧
        ∃ keep pre post, p.2 = pre ++ keep :: post ∧
          (∀ x ∈ pre, x.mtime < keep.mtime) ∧
          (∀ x ∈ p.2, x.mtime ≤ keep.mtime) ∧
          (∀ x ∈ p.2, x ≠ keep → dupEntryOf keep x ∈ r.duplicates) :=
  C4_duplicates_keep_newest exFS false rfl

/-- C7: moving a file into a directory that already holds a file of the
same name appends a counter before the extension until a free name is
found; afterwards both files exist under distinct names with unaltered
contents, and no other file is touched. -/
theorem C7_collision_safe_move (cur : List FileEntry) (dir : List String) (f g : FileEntry)
    (hnd : pathsNodup cur) (hf : f ∈ cur) (hg : g ∈ cur)
    (hgp : g.path = dir ++ [f.name]) (hfd : ¬ f.path.dropLast = dir) :
    ∃ k, 1 ≤ k ∧
      (performMove cur dir f).2 = candName (pyStem f.name) (pySuffix f.name) k ∧
      ({ f with path := dir ++ [(performMove cur dir f).2] } : FileEntry)
        ∈ (performMove cur dir f).1 ∧
      g ∈ (performMove cur dir f).1 ∧
      ¬ dir ++ [(performMove cur dir f).2] = g.path ∧
      (∀ x ∈ cur, ¬ x.path = f.path → x ∈ (performMove cur dir f).1) ∧
      pathsNodup (performMove cur dir f).1 := by
  have hocc : occupiedPath cur (dir ++ [f.name]) = true :=
    occupiedPath_iff.mpr ⟨g, hg, hgp ▸ List.prefix_rfl⟩
  have hform : ∃ k, 1 ≤ k ∧ chooseName cur dir f.name
      = candName (pyStem f.name) (pySuffix f.name) k := by
    unfold chooseName
    rw [if_pos hocc]
    exact resolveName_form cur dir (pyStem f.name) (pySuffix f.name) (cur.length + 1) 1
  obtain ⟨k, hk1, hke⟩ := hform
  have hgne : ¬ g.path = f.path := by
    intro heq
    apply hfd
    rw [← heq, hgp]
    exact List.dropLast_concat
  refine ⟨k, hk1, ?_, performMove_mem_moved hf, performMove_mem_of_ne g hg hgne, ?_,
    fun x hx hxp => performMove_mem_of_ne x hx hxp, performMove_nodup hnd hf⟩
  · rw [performMove_snd]
    exact hke
  · rw [performMove_snd]
    intro heq
    exact chooseName_not_exact cur dir f.name g hg heq.symm

/-- Example collision: a same-named file already occupies the target
directory. -/
def exCur : List FileEntry :=
  [⟨["Images", "a.jpg"], [5], none, 5, 0⟩, ⟨["a.jpg"], [1], none, 1, 0⟩]

/-- C7 witness: the mover applied to the concrete collision. -/
theorem C7_collision_safe_move_witness :
    ∃ k, 1 ≤ k ∧
      (performMove exCur ["Images"] ⟨["a.jpg"], [1], none, 1, 0⟩).2
        = candName (pyStem (FileEntry.name ⟨["a.jpg"], [1], none, 1, 0⟩))
            (pySuffix (FileEntry.name ⟨["a.jpg"], [1], none, 1, 0⟩)) k ∧
      ({ (⟨["a.jpg"], [1], none, 1, 0⟩ : FileEntry) with
          path := ["Images"] ++ [(performMove exCur ["Images"] ⟨["a.jpg"], [1], none, 1, 0⟩).2] }
          : FileEntry)
        ∈ (performMove exCur ["Images"] ⟨["a.jpg"], [1], none, 1, 0⟩).1 ∧
      (⟨["Images", "a.jpg"], [5], none, 5, 0⟩ : FileEntry)
        ∈ (performMove exCur ["Images"] ⟨["a.jpg"], [1], none, 1, 0⟩).1 ∧
      ¬ ["Images"] ++ [(performMove exCur ["Images"] ⟨["a.jpg"], [1], none, 1, 0⟩).2]
        = (⟨["Images", "a.jpg"], [5], none, 5, 0⟩ : FileEntry).path ∧
      (∀ x ∈ exCur, ¬ x.path = (⟨["a.jpg"], [1], none, 1, 0⟩ : FileEntry).path →
        x ∈ (performMove exCur ["Images"] ⟨["a.jpg"], [1], none, 1, 0⟩).1) ∧
      pathsNodup (performMove exCur ["Images"] ⟨["a.jpg"], [1], none, 1, 0⟩).1 :=
  C7_collision_safe_move exCur ["Images"] ⟨["a.jpg"], [1], none, 1, 0⟩
    ⟨["Images", "a.jpg"], [5], none, 5, 0⟩
    (by unfold pathsNodup; decide) (by decide) (by decide) (by decide) (by decide)

/-- C6: after one successful error-free organize-by-type run, a second run
moves zero files and leaves the tree unchanged. -/
theorem C6_organize_idempotent (fs : FS) (r1 : OrgReport) (fs1 : FS)
    (hnd : pathsNodup fs.files)
    (h1 : organizeByType fs false = Except.ok (Res.report r1, fs1))
    (he : r1.errors = []) :
    organizeByType fs1 false = Except.ok (Res.report ⟨[], 0, 0, [], false⟩, fs1) := by
  cases hroot : fs.rootStatus with
  | missing =>
    unfold organizeByType at h1
    rw [if_pos hroot] at h1
    simp at h1
  | fileAt =>
    have hw : orgWalk false fs.moveFails typeDirOf getCategory typeBlocked
        (walkFiles fs) ⟨fs.files, [], []⟩ = Except.ok ⟨fs.files, [], []⟩ := by
      rw [walkFiles_file hroot]
      exact orgWalk_nil
    rw [organizeByType_ok (ne_missing_of_file hroot) hw] at h1
    simp only [Except.ok.injEq, Prod.mk.injEq, Res.report.injEq] at h1
    obtain ⟨hr, hfs⟩ := h1
    have hroot1 : fs1.rootStatus = RootStatus.fileAt := by rw [← hfs]; exact hroot
    have hw2 : orgWalk false fs1.moveFails typeDirOf getCategory typeBlocked
        (walkFiles fs1) ⟨fs1.files, [], []⟩ = Except.ok ⟨fs1.files, [], []⟩ := by
      rw [walkFiles_file hroot1]
      exact orgWalk_nil
    exact organizeByType_ok (ne_missing_of_file hroot1) hw2
  | dir =>
    cases hw : orgWalk false fs.moveFails typeDirOf getCategory typeBlocked
        (walkFiles fs) ⟨fs.files, [], []⟩ with
    | error e =>
      cases e
      rw [organizeByType_err (ne_missing_of_dir hroot) hw] at h1
      cases h1
    | ok acc2 =>
      rw [organizeByType_ok (ne_missing_of_dir hroot) hw] at h1
      simp only [Except.ok.injEq, Prod.mk.injEq, Res.report.injEq] at h1
      obtain ⟨hr, hfs⟩ := h1
      have herrs : acc2.errs = [] := by
        have h3 := congrArg OrgReport.errors hr
        rw [he] at h3
        exact h3
      have hsettled := orgWalk_type_settled (walkFiles fs) ⟨fs.files, [], []⟩ acc2
        hnd (by rw [walkFiles_dir hroot]; exact fun f hf => hf)
        (by rw [walkFiles_dir hroot]; exact hnd) hw herrs
      have hall : ∀ g ∈ acc2.cur, g.path.dropLast = typeDirOf g := by
        intro g hg
        rcases hsettled g hg with hset | ⟨hmem, hnin⟩
        · exact hset
        · exfalso
          rw [walkFiles_dir hroot] at hnin
          exact hnin hmem
      have hroot1 : fs1.rootStatus = RootStatus.dir := by rw [← hfs]; exact hroot
      have hfiles1 : fs1.files = acc2.cur := by rw [← hfs]
      have hw2 : orgWalk false fs1.moveFails typeDirOf getCategory typeBlocked
          (walkFiles fs1) ⟨fs1.files, [], []⟩ = Except.ok ⟨fs1.files, [], []⟩ := by
        rw [walkFiles_dir hroot1]
        apply orgWalk_all_settled
        rw [hfiles1]
        exact hall
      exact organizeByType_ok (ne_missing_of_dir hroot1) hw2

/-- The tree of exFS after its first organize run. -/
def exFS1 : FS := ⟨RootStatus.dir,
  [⟨["Images", "a.jpg"], [1], none, 10, 100⟩,
   ⟨["Documents", "b.txt"], [7], none, 5, 200⟩,
   ⟨["Documents", "c.txt"], [7], none, 5, 300⟩], [], [], [], []⟩

/-- C6 witness: a concrete first run followed by a no-op second run. -/
theorem C6_organize_idempotent_witness :
    organizeByType exFS1 false = Except.ok (Res.report ⟨[], 0, 0, [], false⟩, exFS1) :=
  C6_organize_idempotent exFS
    ⟨[("Images", ["a.jpg"]), ("Documents", ["b.txt", "c.txt"])], 3, 2, [], false⟩ exFS1
    (by unfold pathsNodup; decide) (by decide) rfl
